import Mathlib

/-!
# Aurora package manager: shallow embedding and verification

This file embeds, in Lean 4, the core algorithms of the `aurora` package
manager (libau) and proves properties of them:

* the dot-numeric version comparator (`PackageManager::compare_versions`),
* the SHA-256 checksum verifier (`au::verify_file_checksum`, picosha2),
* the shell-based archive codec (`au::archive::extract`),
* the parallel downloader's per-job mirror fallback and cleanup
  (`Downloader::Impl::download_all`),
* the repository sync (`RepositoryManager::update_all`,
  `Database::sync_repo_packages`),
* the dependency resolver (`DependencyResolver::resolve` / `dfs_visit`),
* the transactional executor (`PackageManager::execute_transaction` /
  `rollback_transaction`).

Filesystems are modelled as partial maps from paths to contents, where a
path is its list of components (`List String`); machine details (inodes,
permissions, directories) are outside the model.  Stateful C++ code is
embedded as explicit state-passing functions; recursion that the C++ code
bounds dynamically is embedded with an explicit fuel parameter and the
theorems quantify over the fuel.
-/

namespace Aurora

/-- A filesystem path, as its list of components. -/
abbrev Path := List String

/-- The modelled filesystem: a partial map from paths to file contents.
Directories are implicit; only regular files (and symlink targets, which the
code treats uniformly via `exists || is_symlink`) are tracked. -/
abbrev FS := Path → Option String

/-- `Package` (libau/include/libau/package.h): static metadata of a package. -/
structure Package where
  name : String := ""
  version : String := ""
  arch : String := ""
  description : String := ""
  repo_name : String := ""
  checksum : String := ""
  installed_size : Nat := 0
  deps : List String := []
  makedepends : List String := []
  conflicts : List String := []
  replaces : List String := []
  provides : List String := []
  files : List Path := []
  pre_install_script : Path := []
  post_install_script : Path := []
  pre_remove_script : Path := []
  post_remove_script : Path := []
  deriving DecidableEq, Repr

/-- `InstalledPackage`: a `Package` plus installation bookkeeping. -/
structure InstalledPackage extends Package where
  install_date : String := ""
  owned_files : List Path := []
  deriving DecidableEq, Repr

/-- `PackageInstallation`: a package together with its downloaded archive. -/
structure PackageInstallation where
  metadata : Package
  downloaded_archive_path : Path
  deriving DecidableEq, Repr

/-- `Transaction`: the executor's input plan. -/
structure Transaction where
  to_install : List PackageInstallation := []
  to_remove : List InstalledPackage := []
  deriving DecidableEq, Repr

/-- `Transaction::is_empty`. -/
def Transaction.is_empty (t : Transaction) : Bool :=
  t.to_install.isEmpty && t.to_remove.isEmpty

/-- `TransactionError` (package_manager.h). -/
inductive TransactionError where
  | ResolutionFailed | DownloadFailed | ChecksumMismatch
  | PackageAlreadyInstalled | PackageNotInstalled | NotEnoughSpace
  | FileConflict | ExtractionFailed | ScriptletFailed
  | FileSystemError | ConflictDetected | DependencyViolation
  deriving DecidableEq, Repr

/-- `ResolveError` (dependency_resolver.h). -/
inductive ResolveError where
  | PackageNotFound | DependencyNotFound | CircularDependency
  | ConflictDetected | AmbiguousProvider
  deriving DecidableEq, Repr

/-- `ExtractError` (archive.h). -/
inductive ExtractError where
  | OpenFile | ReadHeader | ExtractHeader | ExtractData
  | UnsupportedFormat | InternalError
  deriving DecidableEq, Repr

instance {ε α : Type} [DecidableEq ε] [DecidableEq α] : DecidableEq (Except ε α) := fun x y =>
  match x, y with
  | .ok a, .ok b =>
    if h : a = b then isTrue (by rw [h]) else isFalse (fun hh => h (by injection hh))
  | .error e, .error f =>
    if h : e = f then isTrue (by rw [h]) else isFalse (fun hh => h (by injection hh))
  | .ok _, .error _ => isFalse (fun hh => Except.noConfusion hh)
  | .error _, .ok _ => isFalse (fun hh => Except.noConfusion hh)

/-! ## Path component helpers -/

/-- Decidable "starts with" on component lists: `startsWithSeg b q` holds when
`b` is an initial run of `q`, i.e. `q` lies in the directory subtree `b`. -/
def startsWithSeg : Path → Path → Bool
  | [], _ => true
  | _ :: _, [] => false
  | a :: as, b :: bs => a == b && startsWithSeg as bs

theorem startsWithSeg_refl (p : Path) : startsWithSeg p p = true := by
  induction p with
  | nil => rfl
  | cons a as ih => simp [startsWithSeg, ih]

theorem startsWithSeg_append (b t : Path) : startsWithSeg b (b ++ t) = true := by
  induction b with
  | nil => rfl
  | cons a as ih => simp [startsWithSeg, ih]

theorem startsWithSeg_iff (b q : Path) :
    startsWithSeg b q = true ↔ ∃ t, q = b ++ t := by
  induction b generalizing q with
  | nil => simp [startsWithSeg]
  | cons a as ih =>
    cases q with
    | nil =>
      simp only [startsWithSeg, List.cons_append]
      constructor
      · intro h; cases h
      · rintro ⟨t, ht⟩; cases ht
    | cons c cs =>
      simp only [startsWithSeg, Bool.and_eq_true, beq_iff_eq, ih, List.cons_append]
      constructor
      · rintro ⟨rfl, t, rfl⟩; exact ⟨t, rfl⟩
      · rintro ⟨t, ht⟩
        injection ht with h1 h2
        exact ⟨h1.symm, t, h2⟩

/-! ## C9, C10 — the version comparator

`PackageManager::compare_versions` (package_manager.cpp:218-241) splits both
versions on `'.'` with `std::getline` (which drops a trailing empty segment
and yields nothing on an empty string), parses each segment with `std::stoi`,
zero-extends the shorter vector, and compares position by position.
-/

/-- One `std::getline(ss, seg, '.')` scan with the partially read segment
accumulated in reverse in `cur`: a final `'.'` consumes the delimiter and
ends the loop (no trailing empty segment), otherwise a `'.'` emits the
segment and continues. -/
def getlineGo (cur : List Char) : List Char → List (List Char)
  | [] => [cur.reverse]
  | c :: cs =>
    if c = '.' then
      match cs with
      | [] => [cur.reverse]
      | _ :: _ => cur.reverse :: getlineGo [] cs
    else getlineGo (c :: cur) cs

/-- The segment list produced by the C++ `while (std::getline(ss, seg, '.'))`
loop: an empty input produces no segments, and a trailing delimiter does not
produce a final empty segment. -/
def getlineSegs : List Char → List (List Char)
  | [] => []
  | c :: cs => getlineGo [] (c :: cs)

/-- `std::stoi` restricted to all-digit segments: the base-10 value. -/
def parseDecimal (cs : List Char) : Nat :=
  cs.foldl (fun n c => n * 10 + (c.toNat - '0'.toNat)) 0

/-- The final position-by-position loop of `compare_versions`, on the two
zero-extended segment vectors (already brought to equal length). -/
def cmpLoop : List Nat → List Nat → Int
  | a :: as, b :: bs =>
    if a < b then -1 else if b < a then 1 else cmpLoop as bs
  | _, _ => 0

/-- Zero-extension: `v.resize(maxLen, 0)` on a vector not longer than `n`. -/
def resizeZero (l : List Nat) (n : Nat) : List Nat :=
  l ++ List.replicate (n - l.length) 0

/-- `PackageManager::compare_versions` (package_manager.cpp:218-241). -/
def compare_versions (v1 v2 : String) : Int :=
  let p1 := (getlineSegs v1.toList).map parseDecimal
  let p2 := (getlineSegs v2.toList).map parseDecimal
  let maxLen := max p1.length p2.length
  cmpLoop (resizeZero p1 maxLen) (resizeZero p2 maxLen)

/-! Specification side for C9, written from the spec's words: "split both
versions on `.`, parse each segment as a base-10 integer, zero-extend the
shorter side to the longer length, then lexicographic". -/

/-- Plain split scan on `'.'` with the pending segment accumulated in
reverse in `cur` (trailing empties kept). -/
def splitGo (cur : List Char) : List Char → List (List Char)
  | [] => [cur.reverse]
  | c :: cs => if c = '.' then cur.reverse :: splitGo [] cs else splitGo (c :: cur) cs

/-- Plain split on `'.'`: always `count '.' + 1` segments (the spec's
"split on `.`"; trailing empties kept). -/
def splitDotAll (l : List Char) : List (List Char) := splitGo [] l

/-- Spec-side base-10 value of a digit segment, via `Nat.ofDigits`. -/
def specSegValue (cs : List Char) : Nat :=
  Nat.ofDigits 10 ((cs.map (fun c => c.toNat - '0'.toNat)).reverse)

/-- Spec-side lexicographic comparison of two equal-length integer
sequences. -/
def lexCompare : List Nat → List Nat → Ordering
  | [], [] => .eq
  | [], _ :: _ => .lt
  | _ :: _, [] => .gt
  | a :: as, b :: bs =>
    if a < b then .lt else if b < a then .gt else lexCompare as bs

/-- The comparator's `-1 / 0 / 1` encoding of an `Ordering`. -/
def ordToInt : Ordering → Int
  | .lt => -1
  | .eq => 0
  | .gt => 1

/-- A dot-separated all-numeric version string: every `.`-separated segment
is nonempty and consists of decimal digits only. -/
def isDotNumeric (s : String) : Bool :=
  (splitDotAll s.toList).all (fun seg => !seg.isEmpty && seg.all (·.isDigit))

/-- `k` copies of a trailing `".0"` segment, as characters. -/
def trailingZeros : Nat → List Char
  | 0 => []
  | k + 1 => trailingZeros k ++ ['.', '0']

/-- `v` with `k` trailing `".0"` segments appended. -/
def appendZeros (v : String) (k : Nat) : String :=
  ⟨v.data ++ trailingZeros k⟩

/-- The upgrade-selection loop of `PackageManager::plan_update_transaction`
(package_manager.cpp:783-800): an installed package is scheduled for upgrade
iff a repo package of the same name exists whose version compares strictly
greater. -/
def plan_update_upgrades (installed : List InstalledPackage)
    (find_repo : String → Option Package) : List InstalledPackage :=
  installed.filter (fun p =>
    match find_repo p.name with
    | some q => decide (0 < compare_versions q.version p.version)
    | none => false)

/-! Lemmas relating the getline-based splitter to the plain splitter and the
imperative comparison loop to the spec-side lexicographic order. -/

theorem getLastQAppend {α : Type} (l1 l2 : List α) (h : l2 ≠ []) :
    (l1 ++ l2).getLast? = l2.getLast? :=
  List.getLast?_append_of_ne_nil l1 h

theorem getLastQCons {α : Type} (a : α) (l : List α) (h : l ≠ []) :
    (a :: l).getLast? = l.getLast? := by
  have := getLastQAppend [a] l h
  simpa using this

theorem getlineGo_eq_splitGo (l : List Char) :
    ∀ cur, l.getLast? ≠ some '.' → getlineGo cur l = splitGo cur l := by
  induction l with
  | nil => intro cur _; rfl
  | cons c cs ih =>
    intro cur hlast
    cases cs with
    | nil =>
      simp only [List.getLast?_singleton] at hlast
      have hc : c ≠ '.' := fun h => hlast (by rw [h])
      simp [getlineGo, splitGo, hc]
    | cons d ds =>
      have hlast' : (d :: ds).getLast? ≠ some '.' := by
        rwa [getLastQCons c (d :: ds) (by simp)] at hlast
      by_cases hc : c = '.'
      · subst hc
        have e1 : getlineGo cur ('.' :: d :: ds) = cur.reverse :: getlineGo [] (d :: ds) := rfl
        have e2 : splitGo cur ('.' :: d :: ds) = cur.reverse :: splitGo [] (d :: ds) := rfl
        rw [e1, e2, ih _ hlast']
      · have e1 : getlineGo cur (c :: d :: ds) = getlineGo (c :: cur) (d :: ds) := by
          simp only [getlineGo, if_neg hc]
        have e2 : splitGo cur (c :: d :: ds) = splitGo (c :: cur) (d :: ds) := by
          simp only [splitGo, if_neg hc]
        rw [e1, e2, ih _ hlast']

theorem splitGo_ne_nil (l : List Char) (cur : List Char) : splitGo cur l ≠ [] := by
  cases l with
  | nil => simp [splitGo]
  | cons c cs =>
    simp only [splitGo]
    split
    · simp
    · exact splitGo_ne_nil cs _

theorem splitGo_getLast_dot (l : List Char) :
    ∀ cur, l.getLast? = some '.' → (splitGo cur l).getLast? = some [] := by
  induction l with
  | nil => intro cur h; simp at h
  | cons c cs ih =>
    intro cur hlast
    cases cs with
    | nil =>
      simp only [List.getLast?_singleton, Option.some_inj] at hlast
      simp [splitGo, hlast]
    | cons d ds =>
      rw [getLastQCons c (d :: ds) (by simp)] at hlast
      by_cases hc : c = '.'
      · subst hc
        have e2 : splitGo cur ('.' :: d :: ds) = cur.reverse :: splitGo [] (d :: ds) := rfl
        rw [e2, getLastQCons _ _ (splitGo_ne_nil (d :: ds) [])]
        exact ih [] hlast
      · have e2 : splitGo cur (c :: d :: ds) = splitGo (c :: cur) (d :: ds) := by
          simp only [splitGo, if_neg hc]
        rw [e2]
        exact ih _ hlast

theorem allSegsNonempty_not_dot (l : List Char)
    (h : (splitGo [] l).all (fun seg => !seg.isEmpty) = true) :
    l.getLast? ≠ some '.' := by
  intro hdot
  have hlast := splitGo_getLast_dot l [] hdot
  have memOfGetLastQ : ∀ {xs : List (List Char)} {x : List Char},
      xs.getLast? = some x → x ∈ xs := by
    intro xs
    induction xs with
    | nil => intro x h; simp at h
    | cons a as ih =>
      intro x h
      cases as with
      | nil =>
        simp only [List.getLast?_singleton, Option.some_inj] at h
        simp [h]
      | cons b bs =>
        rw [getLastQCons a (b :: bs) (by simp)] at h
        exact List.mem_cons_of_mem _ (ih h)
  have hmem : ([] : List Char) ∈ splitGo [] l := memOfGetLastQ hlast
  have := List.all_eq_true.mp h _ hmem
  simp at this

theorem getlineSegs_eq_splitDotAll (l : List Char) (hne : l ≠ [])
    (h : (splitDotAll l).all (fun seg => !seg.isEmpty) = true) :
    getlineSegs l = splitDotAll l := by
  cases l with
  | nil => exact absurd rfl hne
  | cons c cs =>
    show getlineGo [] (c :: cs) = splitGo [] (c :: cs)
    exact getlineGo_eq_splitGo (c :: cs) [] (allSegsNonempty_not_dot (c :: cs) h)

theorem parseDecimal_eq_specSegValue (cs : List Char) :
    parseDecimal cs = specSegValue cs := by
  suffices hgen : ∀ (cs : List Char) (a : Nat),
      cs.foldl (fun n c => n * 10 + (c.toNat - '0'.toNat)) a =
        a * 10 ^ cs.length + specSegValue cs by
    have := hgen cs 0
    simpa [parseDecimal] using this
  intro cs
  induction cs with
  | nil => intro a; simp [specSegValue, Nat.ofDigits]
  | cons c cs ih =>
    intro a
    have hv : specSegValue (c :: cs) =
        specSegValue cs + 10 ^ cs.length * (c.toNat - '0'.toNat) := by
      simp only [specSegValue, List.map_cons, List.reverse_cons, Nat.ofDigits_append,
        List.length_reverse, List.length_map]
      simp [Nat.ofDigits]
      try ring
    simp only [List.foldl_cons, ih, hv, List.length_cons]
    ring

theorem cmpLoop_eq_lexCompare (a : List Nat) :
    ∀ b, a.length = b.length → cmpLoop a b = ordToInt (lexCompare a b) := by
  induction a with
  | nil =>
    intro b hb
    cases b with
    | nil => rfl
    | cons y ys => simp at hb
  | cons x xs ih =>
    intro b hb
    cases b with
    | nil => simp at hb
    | cons y ys =>
      simp only [List.length_cons, Nat.add_right_cancel_iff] at hb
      simp only [cmpLoop, lexCompare]
      by_cases h1 : x < y
      · simp [h1, ordToInt]
      · by_cases h2 : y < x
        · simp [h1, h2, ordToInt]
        · simp [h1, h2, ih ys hb]

theorem cmpLoop_self (a : List Nat) : cmpLoop a a = 0 := by
  induction a with
  | nil => rfl
  | cons x xs ih => simp [cmpLoop, ih]

theorem resizeZero_length (l : List Nat) (n : Nat) (h : l.length ≤ n) :
    (resizeZero l n).length = n := by
  simp only [resizeZero, List.length_append, List.length_replicate]
  omega

theorem splitGo_append_dotZero (l : List Char) :
    ∀ cur, splitGo cur (l ++ ['.', '0']) = splitGo cur l ++ [['0']] := by
  induction l with
  | nil => intro cur; simp [splitGo]
  | cons c cs ih =>
    intro cur
    by_cases hc : c = '.'
    · simp [splitGo, hc, ih]
    · simp [splitGo, hc, ih]

theorem splitGo_append_trailingZeros (l : List Char) (k : Nat) :
    splitGo [] (l ++ trailingZeros k) = splitGo [] l ++ List.replicate k ['0'] := by
  induction k with
  | zero => simp [trailingZeros]
  | succ k ih =>
    have : l ++ trailingZeros (k + 1) = (l ++ trailingZeros k) ++ ['.', '0'] := by
      simp [trailingZeros]
    rw [this, splitGo_append_dotZero, ih, List.replicate_succ']
    simp

theorem getLast_append_trailingZeros (l : List Char) (k : Nat) :
    (l ++ trailingZeros (k + 1)).getLast? = some '0' := by
  have : l ++ trailingZeros (k + 1) = (l ++ trailingZeros k) ++ ['.', '0'] := by
    simp [trailingZeros]
  rw [this, getLastQAppend _ _ (by simp)]
  rfl

/-- Segment sequence of a version string, spec side. -/
def specSegsOf (v : String) : List Nat := (splitDotAll v.toList).map specSegValue

theorem getline_parse_eq (v : String) (h : isDotNumeric v = true) :
    (getlineSegs v.toList).map parseDecimal = specSegsOf v := by
  have hne : v.toList ≠ [] := by
    intro hnil
    rw [isDotNumeric, hnil] at h
    simp [splitDotAll, splitGo] at h
  have hall : (splitDotAll v.toList).all (fun seg => !seg.isEmpty) = true := by
    rw [isDotNumeric] at h
    rw [List.all_eq_true] at h ⊢
    intro seg hseg
    have := h seg hseg
    simp only [Bool.and_eq_true] at this
    exact this.1
  rw [getlineSegs_eq_splitDotAll v.toList hne hall, specSegsOf]
  exact List.map_congr_left (fun seg _ => parseDecimal_eq_specSegValue seg)

/-- C9: on dot-separated all-numeric version strings, `compare_versions`
returns the lexicographic comparison (as `-1`, `0`, `1`) of the integer
segment sequences obtained by splitting on `'.'`, parsing each segment in
base 10, and zero-extending the shorter sequence to the longer length. -/
theorem claim_C9 (v1 v2 : String)
    (h1 : isDotNumeric v1 = true) (h2 : isDotNumeric v2 = true) :
    compare_versions v1 v2 =
      ordToInt (lexCompare
        (resizeZero (specSegsOf v1) (max (specSegsOf v1).length (specSegsOf v2).length))
        (resizeZero (specSegsOf v2) (max (specSegsOf v1).length (specSegsOf v2).length))) := by
  rw [compare_versions]
  simp only [getline_parse_eq v1 h1, getline_parse_eq v2 h2]
  exact cmpLoop_eq_lexCompare _ _ (by
    rw [resizeZero_length _ _ (Nat.le_max_left _ _),
      resizeZero_length _ _ (Nat.le_max_right _ _)])

/-- Witness for C9 at concrete inputs. -/
theorem claim_C9_witness :
    compare_versions "1.2" "1.10" =
      ordToInt (lexCompare
        (resizeZero (specSegsOf "1.2")
          (max (specSegsOf "1.2").length (specSegsOf "1.10").length))
        (resizeZero (specSegsOf "1.10")
          (max (specSegsOf "1.2").length (specSegsOf "1.10").length))) :=
  claim_C9 "1.2" "1.10" (by decide) (by decide)

theorem compare_appendZeros_right (v : String) (k : Nat) (h : isDotNumeric v = true) :
    compare_versions v (appendZeros v k) = 0 := by
  have hdata : (appendZeros v k).toList = v.toList ++ trailingZeros k := rfl
  cases k with
  | zero =>
    rw [compare_versions, hdata]
    simp only [trailingZeros, List.append_nil, Nat.max_self]
    exact cmpLoop_self _
  | succ k =>
    rw [compare_versions, hdata]
    have hg1 := getline_parse_eq v h
    have hne2 : v.toList ++ trailingZeros (k + 1) ≠ [] := by
      simp [trailingZeros]
    have hg2 : getlineSegs (v.toList ++ trailingZeros (k + 1)) =
        splitGo [] (v.toList ++ trailingZeros (k + 1)) := by
      cases hl : v.toList ++ trailingZeros (k + 1) with
      | nil => exact absurd hl hne2
      | cons c cs =>
        show getlineGo [] (c :: cs) = splitGo [] (c :: cs)
        refine getlineGo_eq_splitGo (c :: cs) [] ?_
        rw [← hl, getLast_append_trailingZeros]
        simp
    simp only [hg1, hg2, splitGo_append_trailingZeros]
    have hmap : ((splitGo [] v.toList ++ List.replicate (k + 1) ['0']).map parseDecimal)
        = specSegsOf v ++ List.replicate (k + 1) 0 := by
      rw [List.map_append, List.map_replicate]
      have : parseDecimal ['0'] = 0 := by decide
      rw [this]
      congr 1
      rw [specSegsOf]
      exact List.map_congr_left (fun seg _ => parseDecimal_eq_specSegValue seg)
    rw [hmap]
    have hlen : (specSegsOf v ++ List.replicate (k + 1) 0).length =
        (specSegsOf v).length + (k + 1) := by simp
    have hmax : max (specSegsOf v).length ((specSegsOf v).length + (k + 1)) =
        (specSegsOf v).length + (k + 1) := by omega
    rw [hlen, hmax]
    have hr1 : resizeZero (specSegsOf v) ((specSegsOf v).length + (k + 1)) =
        specSegsOf v ++ List.replicate (k + 1) 0 := by
      rw [resizeZero]
      congr 2
      omega
    have hr2 : resizeZero (specSegsOf v ++ List.replicate (k + 1) 0)
        ((specSegsOf v).length + (k + 1)) = specSegsOf v ++ List.replicate (k + 1) 0 := by
      rw [resizeZero]
      simp
    rw [hr1, hr2]
    exact cmpLoop_self _

theorem compare_appendZeros_left (v : String) (k : Nat) (h : isDotNumeric v = true) :
    compare_versions (appendZeros v k) v = 0 := by
  have hdata : (appendZeros v k).toList = v.toList ++ trailingZeros k := rfl
  cases k with
  | zero =>
    rw [compare_versions, hdata]
    simp only [trailingZeros, List.append_nil, Nat.max_self]
    exact cmpLoop_self _
  | succ k =>
    rw [compare_versions, hdata]
    have hg1 := getline_parse_eq v h
    have hne2 : v.toList ++ trailingZeros (k + 1) ≠ [] := by
      simp [trailingZeros]
    have hg2 : getlineSegs (v.toList ++ trailingZeros (k + 1)) =
        splitGo [] (v.toList ++ trailingZeros (k + 1)) := by
      cases hl : v.toList ++ trailingZeros (k + 1) with
      | nil => exact absurd hl hne2
      | cons c cs =>
        show getlineGo [] (c :: cs) = splitGo [] (c :: cs)
        refine getlineGo_eq_splitGo (c :: cs) [] ?_
        rw [← hl, getLast_append_trailingZeros]
        simp
    simp only [hg1, hg2, splitGo_append_trailingZeros]
    have hmap : ((splitGo [] v.toList ++ List.replicate (k + 1) ['0']).map parseDecimal)
        = specSegsOf v ++ List.replicate (k + 1) 0 := by
      rw [List.map_append, List.map_replicate]
      have : parseDecimal ['0'] = 0 := by decide
      rw [this]
      congr 1
      rw [specSegsOf]
      exact List.map_congr_left (fun seg _ => parseDecimal_eq_specSegValue seg)
    rw [hmap]
    have hlen : (specSegsOf v ++ List.replicate (k + 1) 0).length =
        (specSegsOf v).length + (k + 1) := by simp
    have hmax : max ((specSegsOf v).length + (k + 1)) (specSegsOf v).length =
        (specSegsOf v).length + (k + 1) := by omega
    rw [hlen, hmax]
    have hr1 : resizeZero (specSegsOf v) ((specSegsOf v).length + (k + 1)) =
        specSegsOf v ++ List.replicate (k + 1) 0 := by
      rw [resizeZero]
      congr 2
      omega
    have hr2 : resizeZero (specSegsOf v ++ List.replicate (k + 1) 0)
        ((specSegsOf v).length + (k + 1)) = specSegsOf v ++ List.replicate (k + 1) 0 := by
      rw [resizeZero]
      simp
    rw [hr1, hr2]
    exact cmpLoop_self _

/-- C10: versions differing only by trailing `".0"` segments compare equal
(`compare_versions "1.2" "1.2.0" = 0`), the update planner schedules an
installed package iff an available package of the same name has a strictly
greater version, and hence it never schedules an upgrade between versions
that differ only by trailing zero segments. -/
theorem claim_C10 :
    compare_versions "1.2" "1.2.0" = 0 ∧
    (∀ v k, isDotNumeric v = true →
      compare_versions v (appendZeros v k) = 0 ∧
      compare_versions (appendZeros v k) v = 0) ∧
    (∀ (installed : List InstalledPackage) (find_repo : String → Option Package)
        (p : InstalledPackage),
      p ∈ plan_update_upgrades installed find_repo ↔
        p ∈ installed ∧ ∃ q, find_repo p.name = some q ∧
          0 < compare_versions q.version p.version) ∧
    (∀ (installed : List InstalledPackage) (find_repo : String → Option Package)
        (p : InstalledPackage) (q : Package) (k : Nat),
      find_repo p.name = some q →
      ((q.version = appendZeros p.version k ∧ isDotNumeric p.version = true) ∨
       (p.version = appendZeros q.version k ∧ isDotNumeric q.version = true)) →
      p ∉ plan_update_upgrades installed find_repo) := by
  have hmem : ∀ (installed : List InstalledPackage) (find_repo : String → Option Package)
      (p : InstalledPackage),
      p ∈ plan_update_upgrades installed find_repo ↔
        p ∈ installed ∧ ∃ q, find_repo p.name = some q ∧
          0 < compare_versions q.version p.version := by
    intro installed find_repo p
    rw [plan_update_upgrades, List.mem_filter]
    constructor
    · rintro ⟨hp, hf⟩
      refine ⟨hp, ?_⟩
      cases hq : find_repo p.name with
      | none => rw [hq] at hf; simp at hf
      | some q =>
        rw [hq] at hf
        exact ⟨q, rfl, of_decide_eq_true hf⟩
    · rintro ⟨hp, q, hq, hlt⟩
      exact ⟨hp, by rw [hq]; exact decide_eq_true hlt⟩
  refine ⟨by decide, ?_, hmem, ?_⟩
  · intro v k h
    exact ⟨compare_appendZeros_right v k h, compare_appendZeros_left v k h⟩
  · intro installed find_repo p q k hq hcase hmem'
    rcases (hmem installed find_repo p).mp hmem' with ⟨-, q', hq', hlt⟩
    rw [hq] at hq'
    injection hq' with hq'
    subst hq'
    rcases hcase with ⟨hv, hnum⟩ | ⟨hv, hnum⟩
    · rw [hv, compare_appendZeros_left p.version k hnum] at hlt
      exact absurd hlt (by decide)
    · rw [hv, compare_appendZeros_right q.version k hnum] at hlt
      exact absurd hlt (by decide)

/-- Sample installed package for the C10 witness. -/
def c10inst : InstalledPackage := { name := "a", version := "1.2" }

/-- Sample available catalog for the C10 witness: same package, version
`"1.2.0"` (one trailing zero segment appended). -/
def c10find : String → Option Package := fun n =>
  if n = "a" then some { name := "a", version := appendZeros "1.2" 1 } else none

/-- Witness for C10 at a concrete input: an available version differing only
by a trailing `".0"` does not get scheduled. -/
theorem claim_C10_witness : c10inst ∉ plan_update_upgrades [c10inst] c10find :=
  claim_C10.2.2.2 [c10inst] c10find c10inst
    { name := "a", version := appendZeros "1.2" 1 } 1 rfl (Or.inl ⟨rfl, by decide⟩)

/-! ## C7 — checksum verification (crypto.cpp:15-44, picosha2)

`au::verify_file_checksum` computes the SHA-256 hex digest of the file's
contents with picosha2 (which always emits lowercase hex) and compares it to
the expected string with `std::string` equality.  The file is modelled by
its byte contents; the early `false` returns for a missing/unopenable file
are outside the model (the claim quantifies over existing readable files).
-/

/-- 32-bit truncation. -/
def m32 (x : Nat) : Nat := x % 4294967296

/-- 32-bit right rotation. -/
def rotr32 (n x : Nat) : Nat := m32 ((x >>> n) ||| (x <<< (32 - n)))

/-- SHA-256 round constants (picosha2's k table, 0x428a2f98 ... 0xc67178f2,
written in decimal). -/
def sha256k : List Nat :=
  [1116352408, 1899447441, 3049323471, 3921009573, 961987163, 1508970993,
   2453635748, 2870763221, 3624381080, 310598401, 607225278, 1426881987,
   1925078388, 2162078206, 2614888103, 3248222580, 3835390401, 4022224774,
   264347078, 604807628, 770255983, 1249150122, 1555081692, 1996064986,
   2554220882, 2821834349, 2952996808, 3210313671, 3336571891, 3584528711,
   113926993, 338241895, 666307205, 773529912, 1294757372, 1396182291,
   1695183700, 1986661051, 2177026350, 2456956037, 2730485921, 2820302411,
   3259730800, 3345764771, 3516065817, 3600352804, 4094571909, 275423344,
   430227734, 506948616, 659060556, 883997877, 958139571, 1322822218,
   1537002063, 1747873779, 1955562222, 2024104815, 2227730452, 2361852424,
   2428436474, 2756734187, 3204031479, 3329325298]

/-- SHA-256 initial hash values (0x6a09e667 ... 0x5be0cd19, in decimal). -/
def sha256init : List Nat :=
  [1779033703, 3144134277, 1013904242, 2773480762,
   1359893119, 2600822924, 528734635, 1541459225]

/-- Big-endian byte serialization of `v` into `n` bytes. -/
def toBytesBE (n v : Nat) : List Nat :=
  (List.range n).map (fun i => (v >>> (8 * (n - 1 - i))) % 256)

/-- SHA-256 message padding: `0x80`, zeros, and the 64-bit big-endian bit
length, bringing the length to a multiple of 64 bytes. -/
def sha256pad (msg : List Nat) : List Nat :=
  msg ++ [0x80] ++ List.replicate ((64 - ((msg.length + 9) % 64)) % 64) 0
      ++ toBytesBE 8 (8 * msg.length)

/-- Split into 64-byte blocks (fuel-bounded by the list length). -/
def chunks64go : Nat → List Nat → List (List Nat)
  | 0, _ => []
  | _ + 1, [] => []
  | fuel + 1, l => l.take 64 :: chunks64go fuel (l.drop 64)

def chunks64 (l : List Nat) : List (List Nat) := chunks64go l.length l

/-- The 16 initial 32-bit schedule words of a 64-byte block (big-endian). -/
def blockWords : Nat → List Nat → List Nat
  | 0, _ => []
  | _ + 1, [] => []
  | n + 1, b0 :: rest =>
    let b1 := rest.getD 0 0
    let b2 := rest.getD 1 0
    let b3 := rest.getD 2 0
    (((b0 <<< 24) ||| (b1 <<< 16) ||| (b2 <<< 8) ||| b3)) :: blockWords n (rest.drop 3)

/-- Message-schedule extension: extend the 16 words to 64. -/
def extendW : Nat → List Nat → List Nat
  | 0, w => w
  | n + 1, w =>
    let len := w.length
    let w15 := w.getD (len - 15) 0
    let w2 := w.getD (len - 2) 0
    let s0 := (rotr32 7 w15) ^^^ (rotr32 18 w15) ^^^ (w15 >>> 3)
    let s1 := (rotr32 17 w2) ^^^ (rotr32 19 w2) ^^^ (w2 >>> 10)
    extendW n (w ++ [m32 (w.getD (len - 16) 0 + s0 + w.getD (len - 7) 0 + s1)])

/-- One compression round; the state is the `[a,b,c,d,e,f,g,h]` word list. -/
def sha256round (st : List Nat) (kw : Nat × Nat) : List Nat :=
  match st with
  | [a, b, c, d, e, f, g, h] =>
    let s1 := (rotr32 6 e) ^^^ (rotr32 11 e) ^^^ (rotr32 25 e)
    let ch := (e &&& f) ^^^ ((e ^^^ 4294967295) &&& g)
    let t1 := m32 (h + s1 + ch + kw.1 + kw.2)
    let s0 := (rotr32 2 a) ^^^ (rotr32 13 a) ^^^ (rotr32 22 a)
    let mj := (a &&& b) ^^^ (a &&& c) ^^^ (b &&& c)
    let t2 := m32 (s0 + mj)
    [m32 (t1 + t2), a, b, c, m32 (d + t1), e, f, g]
  | other => other

/-- Process one 64-byte block: run 64 rounds and add into the hash state. -/
def sha256block (hs : List Nat) (block : List Nat) : List Nat :=
  let w := extendW 48 (blockWords 16 block)
  let fin := (sha256k.zip w).foldl sha256round hs
  (hs.zip fin).map (fun p => m32 (p.1 + p.2))

/-- SHA-256 digest bytes of a byte list. -/
def sha256bytes (msg : List Nat) : List Nat :=
  ((chunks64 (sha256pad msg)).foldl sha256block sha256init).flatMap (toBytesBE 4)

/-- Lowercase hex digit, as picosha2's `bytes_to_hex_string` table. -/
def hexDigitChar (n : Nat) : Char := "0123456789abcdef".toList.getD n '0'

/-- picosha2 `hash256_hex_string`: the lowercase hex digest string. -/
def sha256hex (msg : List Nat) : String :=
  ⟨(sha256bytes msg).flatMap (fun b => [hexDigitChar (b / 16), hexDigitChar (b % 16)])⟩

/-- `au::verify_file_checksum` (crypto.cpp:15-44) on the contents of an
existing readable file: computes the picosha2 hex digest and compares it to
`expected` with plain `std::string` equality. -/
def verify_file_checksum (contents : List Nat) (expected : String) : Bool :=
  sha256hex contents == expected

/-- Case-insensitive string comparison (the spec's comparison for C7). -/
def eqIgnoreCase (a b : String) : Bool :=
  a.toList.map Char.toLower == b.toList.map Char.toLower

theorem hexDigitChar_not_upper (n : Nat) : (hexDigitChar n).isUpper = false := by
  by_cases h : n < 16
  · have hb : ∀ m, m < 16 → ((("0123456789abcdef".toList).getD m '0').isUpper = false) := by
      decide
    exact hb n h
  · rw [hexDigitChar, List.getD_eq_default]
    · rfl
    · have : ("0123456789abcdef".toList).length = 16 := by decide
      omega

theorem sha256hex_chars_not_upper (contents : List Nat) (c : Char)
    (hc : c ∈ (sha256hex contents).toList) : c.isUpper = false := by
  have hmem : c ∈ (sha256bytes contents).flatMap
      (fun b => [hexDigitChar (b / 16), hexDigitChar (b % 16)]) := hc
  rcases List.mem_flatMap.mp hmem with ⟨b, -, hcb⟩
  simp only [List.mem_cons, List.not_mem_nil, or_false] at hcb
  rcases hcb with rfl | rfl <;> exact hexDigitChar_not_upper _

/-- C7 counterexample: the claim says `verify_checksum` compares the digest
case-insensitively, so the uppercase spelling of the correct digest of the
empty file should verify; the code compares with exact string equality and
rejects it. -/
theorem claim_C7_counterexample :
    eqIgnoreCase (sha256hex [])
      "E3B0C44298FC1C149AFBF4C8996FB92427AE41E4649B934CA495991B7852B855" = true ∧
    verify_file_checksum []
      "E3B0C44298FC1C149AFBF4C8996FB92427AE41E4649B934CA495991B7852B855" = false :=
  ⟨by decide, by decide⟩

/-- C7 (amended): `verify_file_checksum` on an existing readable file returns
`true` iff the lowercase SHA-256 hex digest of the contents equals the
expected string exactly (case-sensitively); since the computed digest is
lowercase, an expected digest containing an uppercase letter never
verifies. -/
theorem claim_C7_amended :
    (∀ contents expected,
      verify_file_checksum contents expected = true ↔ sha256hex contents = expected) ∧
    (∀ contents expected, (∃ c ∈ expected.toList, c.isUpper = true) →
      verify_file_checksum contents expected = false) := by
  have h1 : ∀ contents expected,
      verify_file_checksum contents expected = true ↔ sha256hex contents = expected := by
    intro contents expected
    rw [verify_file_checksum, beq_iff_eq]
  refine ⟨h1, ?_⟩
  intro contents expected hup
  cases hv : verify_file_checksum contents expected with
  | false => rfl
  | true =>
    rcases hup with ⟨c, hc, hcup⟩
    rw [← (h1 contents expected).mp hv] at hc
    rw [sha256hex_chars_not_upper contents c hc] at hcup
    cases hcup

/-- Witness for the amended C7: an uppercase expected digest is rejected. -/
theorem claim_C7_witness :
    verify_file_checksum []
      "E3B0C44298FC1C149AFBF4C8996FB92427AE41E4649B934CA495991B7852B855" = false :=
  claim_C7_amended.2 [] _ ⟨'E', by decide, by decide⟩

/-! ## C2 — archive extraction (archive.cpp:39-80)

`au::archive::extract` shells out: it runs `tar -t` to list the entries,
builds the manifest by dropping empty lines and directory lines (trailing
`/`) and stripping a leading `"./"`, then changes into the destination and
runs `tar -x`, returning `ReadHeader` if listing failed, `ExtractData` if
the tar process exits nonzero, and otherwise the manifest.  The archive is
modelled by its listing lines, the listing success flag, and the external
tar exit status; the function itself inspects no entry path.
-/

/-- `line.rfind("./", 0) == 0 → line.substr(2)`. -/
def stripDotSlash (line : String) : String :=
  match line.toList with
  | '.' :: '/' :: rest => ⟨rest⟩
  | _ => line

/-- `!line.empty() && line.back() != '/'` (the manifest loop's keep test). -/
def keepLine (line : String) : Bool :=
  match line.toList with
  | [] => false
  | c :: cs => !((c :: cs).getLast? == some '/')

/-- The manifest loop of `extract` (archive.cpp:50-56): skip empty lines and
lines ending in `/`, strip a leading `"./"`. -/
def tarListManifest (lines : List String) : List String :=
  (lines.filter keepLine).map stripDotSlash

/-- `au::archive::extract` (archive.cpp:39-80). -/
def extract (listOk : Bool) (lines : List String) (tarExitCode : Nat) :
    Except ExtractError (List String) :=
  if !listOk then .error .ReadHeader
  else if tarExitCode ≠ 0 then .error .ExtractData
  else .ok (tarListManifest lines)

/-- Generic split scan on a delimiter character. -/
def splitCharGo (d : Char) (cur : List Char) : List Char → List (List Char)
  | [] => [cur.reverse]
  | c :: cs => if c = d then cur.reverse :: splitCharGo d [] cs else splitCharGo d (c :: cur) cs

/-- The components of a POSIX path string (empty components dropped). -/
def pathComponents (s : String) : List String :=
  ((splitCharGo '/' [] s.toList).map (fun cs => String.mk cs)).filter (fun c => c ≠ "")

/-- Lexical path normalization over components: drop `"."`, let `".."` pop
the previous component (kept literally when there is nothing to pop). -/
def normGo : List String → List String → List String
  | acc, [] => acc.reverse
  | acc, s :: rest =>
    if s = "." then normGo acc rest
    else if s = ".." then
      match acc with
      | [] => normGo [".."] rest
      | a :: as => if a = ".." then normGo (".." :: a :: as) rest else normGo as rest
    else normGo (s :: acc) rest

/-- Normalized form of a component path. -/
def normalizeSegs (p : List String) : List String := normGo [] p

/-- C2 evaluation at the failing input: the listing contains the entry
`"../evil.txt"`, whose normalized destination escapes the destination
directory, the external tar run exits 0, and `extract` — which contains no
path-traversal check at all — returns the entry in its `ok` manifest
instead of rejecting it. -/
theorem claim_C2_eval :
    extract true ["../evil.txt"] 0 = .ok ["../evil.txt"] ∧
    pathComponents "../evil.txt" = ["..", "evil.txt"] ∧
    startsWithSeg ["tmp", "dest"]
      (normalizeSegs (["tmp", "dest"] ++ pathComponents "../evil.txt")) = false := by
  refine ⟨?_, by decide, by decide⟩
  have h : tarListManifest ["../evil.txt"] = ["../evil.txt"] := by decide
  show extract true ["../evil.txt"] 0 = _
  rw [extract]
  simp [h]

/-! ## C8 — downloader batch semantics (downloader.cpp:101-281)

`Downloader::Impl::download_all`: a job with no URLs, or whose destination
cannot be opened, is pre-failed; otherwise the job races its URL list in
order, truncating and reopening the destination before each retry; when the
list is exhausted the job keeps the last curl error.  After the multi loop,
the cleanup pass closes handles and deletes the destination of every job
whose `error_message` is nonempty, and the function returns `true` iff no
job has an error.  Jobs only ever touch their own destination path, so the
concurrent multi loop is modelled job by job; transfer outcomes come from
the `fetch` oracle (`none` = transport/HTTP failure, as with
`CURLOPT_FAILONERROR`).
-/

/-- A download job (downloader.h): mirror URL list and destination. -/
structure DownloadJob where
  urls : List String
  destination_path : Path
  name_for_display : String := ""
  deriving DecidableEq, Repr

/-- The downloader's environment: whether `fopen(dest, "wb")` succeeds, and
the outcome of fetching each URL. -/
structure DlEnv where
  openOk : Path → Bool
  fetch : String → Option String

/-- Point update of the modelled filesystem. -/
def updateFS (fs : FS) (p : Path) (v : Option String) : FS :=
  fun q => if q = p then v else fs q

/-- Error outcome of racing the URL list in order (nonempty list): `none`
when some URL succeeds, otherwise the last curl error. -/
def outcomeGo (env : DlEnv) : List String → Option String
  | [] => none
  | [u] => if (env.fetch u).isSome then none else some "curl error"
  | u :: rest => if (env.fetch u).isSome then none else outcomeGo env rest

/-- Final `error_message` of one job (empty = `none`). -/
def jobOutcome (env : DlEnv) (job : DownloadJob) : Option String :=
  if job.urls.isEmpty then some "No source URLs provided."
  else if !(env.openOk job.destination_path) then some "Could not open file for writing."
  else outcomeGo env job.urls

/-- Filesystem effect of one job's transfer phase: `fopen("wb")` truncates,
each mirror retry reopens and truncates, a successful transfer writes the
fetched contents (a failed final attempt leaves the truncated file, deleted
later by cleanup). -/
def jobTransferFS (env : DlEnv) (dest : Path) : List String → FS → FS
  | [], fs => fs
  | [u], fs =>
    match env.fetch u with
    | some c => updateFS fs dest (some c)
    | none => fs
  | u :: rest, fs =>
    match env.fetch u with
    | some c => updateFS fs dest (some c)
    | none => jobTransferFS env dest rest (updateFS fs dest (some ""))

/-- One job's full transfer phase (no URLs / unopenable destination leave
the filesystem untouched; otherwise open-truncate then race the list). -/
def runJobFS (env : DlEnv) (job : DownloadJob) (fs : FS) : FS :=
  if job.urls.isEmpty then fs
  else if !(env.openOk job.destination_path) then fs
  else jobTransferFS env job.destination_path job.urls
    (updateFS fs job.destination_path (some ""))

/-- Transfer phase over the whole batch. -/
def runJobsFS (env : DlEnv) : List DownloadJob → FS → FS
  | [], fs => fs
  | j :: js, fs => runJobsFS env js (runJobFS env j fs)

/-- The final cleanup loop (downloader.cpp:259-278): delete the destination
of every job whose error message is nonempty. -/
def cleanupJobs (env : DlEnv) : List DownloadJob → FS → FS
  | [], fs => fs
  | j :: js, fs =>
    cleanupJobs env js
      (if (jobOutcome env j).isSome then updateFS fs j.destination_path none else fs)

/-- `Downloader::Impl::download_all` (downloader.cpp:101-281): run all
transfers, clean up failed destinations, return `true` iff every job
finished without an error. -/
def download_all (env : DlEnv) (jobs : List DownloadJob) (fs : FS) : Bool × FS :=
  let fs1 := runJobsFS env jobs fs
  let fs2 := cleanupJobs env jobs fs1
  (jobs.all (fun j => (jobOutcome env j).isNone), fs2)

theorem cleanup_preserves_none (env : DlEnv) (js : List DownloadJob) (fs : FS)
    (p : Path) (h : fs p = none) : cleanupJobs env js fs p = none := by
  induction js generalizing fs with
  | nil => exact h
  | cons j js ih =>
    rw [cleanupJobs]
    apply ih
    by_cases hj : (jobOutcome env j).isSome
    · simp only [hj, if_pos]
      rw [updateFS]
      split <;> simp [h]
    · simp only [hj, if_neg]
      simpa using h

theorem cleanup_deletes_failed (env : DlEnv) (js : List DownloadJob) (fs : FS)
    (j : DownloadJob) (hj : j ∈ js) (herr : (jobOutcome env j).isSome) :
    cleanupJobs env js fs j.destination_path = none := by
  induction js generalizing fs with
  | nil => cases hj
  | cons j0 js ih =>
    rw [cleanupJobs]
    rcases List.mem_cons.mp hj with rfl | hmem
    · rw [if_pos herr]
      apply cleanup_preserves_none
      simp [updateFS]
    · exact ih _ hmem

/-- C8: after `download_all` returns, every job that ultimately failed (all
URLs exhausted, no URL, or unopenable destination) has its destination
deleted, and the return value is `true` iff every job in the batch finished
without an error. -/
theorem claim_C8 (env : DlEnv) (jobs : List DownloadJob) (fs : FS) :
    ((download_all env jobs fs).1 = true ↔
      ∀ job ∈ jobs, jobOutcome env job = none) ∧
    (∀ job ∈ jobs, jobOutcome env job ≠ none →
      (download_all env jobs fs).2 job.destination_path = none) := by
  constructor
  · rw [download_all]
    simp only [List.all_eq_true, Option.isNone_iff_eq_none]
  · intro job hmem herr
    rw [download_all]
    exact cleanup_deletes_failed env jobs _ job hmem (Option.isSome_iff_ne_none.mpr herr)

/-! ## C3 — repository sync atomicity (part_007:81-178, part_008:275-301)

`RepositoryManager::update_all` iterates the configured repos (name and
mirror list; a repo with no mirrors is skipped without failing).  For each
repo it downloads index+signature (mirror fallback inside the downloader),
verifies the signature unless disabled, and parses the index, tagging every
entry with the repo name; any step failing marks `all_succeeded = false` and
continues with the next repo.  After the loop, the collected union is synced
into the catalog via `Database::sync_repo_packages` — an atomic
delete-all-plus-insert — iff `all_succeeded` and at least one package was
collected, and `all_succeeded` is returned.  Per-repo outcomes come from an
oracle keyed by repo name; the repo list stands for the `std::map` iteration
(name-sorted in C++; the claim is order-independent).
-/

/-- Per-repo oracle: download success of the index+signature batch,
signature verification outcome, and the parse result of the index. -/
structure SyncEnv where
  downloadOk : String → Bool
  sigOk : String → Bool
  parsed : String → Option (List Package)

/-- A repo with a nonempty mirror list is attempted (part_007:94-97). -/
def repoAttempted (r : String × List String) : Bool := !r.2.isEmpty

/-- An attempted repo succeeds when download, signature check (unless
skipped) and parse all succeed; an unattempted repo counts as success. -/
def repoSucceeded (skip : Bool) (env : SyncEnv) (r : String × List String) : Bool :=
  !repoAttempted r ||
    (env.downloadOk r.1 && (skip || env.sigOk r.1) && (env.parsed r.1).isSome)

/-- `Database::sync_repo_packages` (part_008:275-301): one transaction that
deletes all rows and `replace`-inserts every package (later packages with
the same primary-key name overwrite earlier ones). -/
def sync_repo_packages (packages : List Package) (_db : List Package) : List Package :=
  packages.foldl (fun acc p => acc.filter (fun q => q.name ≠ p.name) ++ [p]) []

/-- The packages collected from the repo list: every attempted repo whose
download and signature check succeed contributes its parsed entries tagged
with the repo name (nothing on parse failure). -/
def specCollect (skip : Bool) (env : SyncEnv) : List (String × List String) → List Package
  | [] => []
  | (name, mirrors) :: rest =>
    (if !mirrors.isEmpty && env.downloadOk name && (skip || env.sigOk name) then
      match env.parsed name with
      | some pkgs => pkgs.map (fun p => { p with repo_name := name })
      | none => []
    else []) ++ specCollect skip env rest

/-- The per-repo loop of `update_all` (part_007:91-167), carrying
`all_succeeded` and the accumulated package union. -/
def updateAllGo (skip : Bool) (env : SyncEnv) :
    List (String × List String) → Bool → List Package → Bool × List Package
  | [], ok, acc => (ok, acc)
  | (name, mirrors) :: rest, ok, acc =>
    if mirrors.isEmpty then updateAllGo skip env rest ok acc
    else if !env.downloadOk name then updateAllGo skip env rest false acc
    else if !skip && !env.sigOk name then updateAllGo skip env rest false acc
    else
      match env.parsed name with
      | none => updateAllGo skip env rest false acc
      | some pkgs =>
        updateAllGo skip env rest ok (acc ++ pkgs.map (fun p => { p with repo_name := name }))

/-- Result record of a sync run (the catalog after the run, the returned
flag, whether `sync_repo_packages` was invoked, and the collected union). -/
structure UpdateResult where
  ret : Bool
  db : List Package
  didSync : Bool
  collected : List Package

/-- `RepositoryManager::update_all` (part_007:81-178). -/
def update_all (skip : Bool) (env : SyncEnv) (repos : List (String × List String))
    (db : List Package) : UpdateResult :=
  let r := updateAllGo skip env repos true []
  if r.1 && !r.2.isEmpty then ⟨r.1, sync_repo_packages r.2 db, true, r.2⟩
  else ⟨r.1, db, false, r.2⟩

theorem updateAllGo_spec (skip : Bool) (env : SyncEnv)
    (repos : List (String × List String)) :
    ∀ ok acc, updateAllGo skip env repos ok acc =
      (ok && repos.all (repoSucceeded skip env), acc ++ specCollect skip env repos) := by
  induction repos with
  | nil => intro ok acc; simp [updateAllGo, specCollect]
  | cons r rest ih =>
    intro ok acc
    obtain ⟨name, mirrors⟩ := r
    rw [updateAllGo]
    by_cases hm : mirrors.isEmpty
    · rw [if_pos hm, ih]
      simp [specCollect, repoSucceeded, repoAttempted, hm]
    · rw [if_neg hm]
      by_cases hd : env.downloadOk name = true
      · rw [if_neg (by simp [hd])]
        by_cases hs : (skip || env.sigOk name) = true
        · have hnot : ¬((!skip && !env.sigOk name) = true) := by
            simp only [Bool.and_eq_true, Bool.not_eq_true']
            rintro ⟨h1, h2⟩
            rw [h1, h2] at hs
            cases hs
          rw [if_neg hnot]
          cases hp : env.parsed name with
          | none =>
            dsimp only
            rw [ih]
            simp [specCollect, repoSucceeded, repoAttempted, hm, hd, hs, hp]
          | some pkgs =>
            dsimp only
            rw [ih]
            simp [specCollect, repoSucceeded, repoAttempted, hm, hd, hs, hp]
        · have hsk : skip = false := by
            cases hskip : skip
            · rfl
            · rw [hskip] at hs; simp at hs
          have hsig : env.sigOk name = false := by
            rw [hsk] at hs
            simpa using hs
          rw [if_pos (by simp [hsk, hsig])]
          rw [ih]
          simp [specCollect, repoSucceeded, repoAttempted, hm, hd, hsk, hsig]
      · rw [if_pos (by simp [hd]), ih]
        simp [specCollect, repoSucceeded, repoAttempted, hm, hd]

/-- C3: the available catalog is replaced — via the atomic
`sync_repo_packages` of all collected packages — iff every attempted repo
succeeded and at least one package was obtained; on any repo failure the
catalog is untouched and the sync returns failure. -/
theorem claim_C3 (skip : Bool) (env : SyncEnv)
    (repos : List (String × List String)) (db : List Package) :
    ((update_all skip env repos db).ret = true ↔
      ∀ r ∈ repos, repoSucceeded skip env r = true) ∧
    (update_all skip env repos db).collected = specCollect skip env repos ∧
    ((update_all skip env repos db).didSync = true ↔
      ((update_all skip env repos db).ret = true ∧
        (update_all skip env repos db).collected ≠ [])) ∧
    ((update_all skip env repos db).didSync = true →
      (update_all skip env repos db).db =
        sync_repo_packages (update_all skip env repos db).collected db) ∧
    ((update_all skip env repos db).ret = false →
      (update_all skip env repos db).db = db ∧
        (update_all skip env repos db).didSync = false) := by
  have hgo := updateAllGo_spec skip env repos true []
  simp only [Bool.true_and, List.nil_append] at hgo
  rw [update_all]
  rw [hgo]
  set allB := repos.all (repoSucceeded skip env) with hallB
  set C := specCollect skip env repos with hC
  have hiff : allB = true ↔ ∀ r ∈ repos, repoSucceeded skip env r = true := by
    rw [hallB, List.all_eq_true]
  by_cases hcond : (allB && !C.isEmpty) = true
  · rw [if_pos hcond]
    simp only [Bool.and_eq_true] at hcond
    obtain ⟨hall, hne⟩ := hcond
    have hCne : C ≠ [] := by
      intro h
      rw [h] at hne
      simp at hne
    dsimp only
    refine ⟨hiff, rfl, by simp [hall, hCne], fun _ => rfl, ?_⟩
    intro h
    rw [hall] at h
    simp at h
  · rw [if_neg hcond]
    dsimp only
    refine ⟨hiff, rfl, ?_, fun h => by simp at h, fun _ => ⟨rfl, rfl⟩⟩
    simp only [Bool.false_eq_true, false_iff]
    rintro ⟨hall, hne⟩
    apply hcond
    simp only [hall, Bool.true_and]
    simp [List.isEmpty_iff, hne]

/-- Witness for C8 at a concrete input: one job with no URLs (pre-failed,
pre-existing destination deleted) and one succeeding job. -/
theorem claim_C8_witness :
    ((download_all ⟨fun _ => true, fun _ => some "data"⟩
        [⟨[], ["d", "f1"], ""⟩, ⟨["http: u"], ["d", "f2"], ""⟩]
        (fun _ => some "old")).1 = false ∧
     (download_all ⟨fun _ => true, fun _ => some "data"⟩
        [⟨[], ["d", "f1"], ""⟩, ⟨["http: u"], ["d", "f2"], ""⟩]
        (fun _ => some "old")).2 ["d", "f1"] = none) := by
  constructor
  · decide
  · exact (claim_C8 ⟨fun _ => true, fun _ => some "data"⟩
      [⟨[], ["d", "f1"], ""⟩, ⟨["http: u"], ["d", "f2"], ""⟩]
      (fun _ => some "old")).2 ⟨[], ["d", "f1"], ""⟩ (by decide) (by decide)

/-- Failing sync environment for the C3 witness: the download of every repo
index fails. -/
def c3env : SyncEnv := ⟨fun _ => false, fun _ => true, fun _ => some [{ name := "p" }]⟩

/-- One configured repo with one mirror, for the C3 witness. -/
def c3repos : List (String × List String) := [("core", ["mirror-a"])]

/-- Prior available catalog for the C3 witness. -/
def c3db : List Package := [{ name := "old" }]

/-- Witness for C3 at a concrete input: a failed repo leaves the catalog
untouched and no sync happens. -/
theorem claim_C3_witness :
    (update_all false c3env c3repos c3db).db = c3db ∧
    (update_all false c3env c3repos c3db).didSync = false :=
  (claim_C3 false c3env c3repos c3db).2.2.2.2 (by decide)

/-! ## C4, C5 — the dependency resolver (part_008:372-461)

`DependencyResolver::dfs_visit`: a dependency already in `visited`, already
named or provided by the partial result list, or named or provided by an
installed package, is satisfied.  Otherwise STEP 2-3 select a provider from
the repo catalog: the package with the exact name if one exists (each exact
match overwrites the previous, and such packages are excluded from the
virtual-provider list), else the unique package whose `provides` contains
the name — zero providers is `DependencyNotFound`, several is
`AmbiguousProvider`.  A provider already on the DFS stack is
`CircularDependency`; otherwise the resolver recurses on the provider's
deps and appends the provider.  The C++ recursion depth is bounded by the
number of distinct package names; the embedding uses an explicit fuel
(`none` = fuel exhausted) and the theorems quantify over the fuel.
-/

/-- The resolver's mutable state: the topologically sorted output being
built, plus the gray (`visiting`) and black (`visited`) name sets. -/
structure RState where
  sorted : List Package
  visiting : List String
  visited : List String
  deriving Repr

/-- STEP 2-3 of `dfs_visit` (part_008:394-435): provider selection. -/
def selectProvider (repo : List Package) (dep : String) : Except ResolveError Package :=
  let real := repo.foldl (fun acc p => if p.name = dep then some p else acc)
    (none : Option Package)
  let virts := repo.filter (fun p => p.name != dep && p.provides.contains dep)
  match real with
  | some p => .ok p
  | none =>
    match virts with
    | [q] => .ok q
    | [] => .error .DependencyNotFound
    | _ => .error .AmbiguousProvider

/-- The `for (next_dep : provider.deps)` loop of `dfs_visit`, parameterized
by the recursive call (an error aborts the loop and propagates). -/
def dfsDeps (f : String → RState → Option (Except ResolveError RState)) :
    List String → RState → Option (Except ResolveError RState)
  | [], st => some (.ok st)
  | d :: ds, st =>
    match f d st with
    | none => none
    | some (.error e) => some (.error e)
    | some (.ok st2) => dfsDeps f ds st2

/-- `DependencyResolver::dfs_visit` (part_008:372-461). -/
def dfsVisit (repo : List Package) (inst : List InstalledPackage) :
    Nat → String → RState → Option (Except ResolveError RState)
  | 0, _, _ => none
  | fuel + 1, dep, st =>
    if st.visited.contains dep then some (.ok st)
    else if st.sorted.any (fun p => p.name == dep || p.provides.contains dep) then
      some (.ok st)
    else if inst.any (fun p => p.name == dep || p.provides.contains dep) then
      some (.ok st)
    else
      match selectProvider repo dep with
      | .error e => some (.error e)
      | .ok p =>
        if st.visited.contains p.name then some (.ok st)
        else if st.visiting.contains p.name then some (.error .CircularDependency)
        else
          match dfsDeps (dfsVisit repo inst fuel) p.deps
              { st with visiting := p.name :: st.visiting } with
          | none => none
          | some (.error e) => some (.error e)
          | some (.ok st2) =>
            some (.ok { sorted := st2.sorted ++ [p],
                        visiting := st2.visiting.erase p.name,
                        visited := p.name :: st2.visited })

/-- `DependencyResolver::resolve` (part_008:324-341): run the DFS for each
requested name not yet visited. -/
def resolveGo (repo : List Package) (inst : List InstalledPackage) (fuel : Nat) :
    List String → RState → Option (Except ResolveError RState)
  | [], st => some (.ok st)
  | n :: ns, st =>
    if st.visited.contains n then resolveGo repo inst fuel ns st
    else
      match dfsVisit repo inst fuel n st with
      | none => none
      | some (.error e) => some (.error e)
      | some (.ok st2) => resolveGo repo inst fuel ns st2

def resolve (repo : List Package) (inst : List InstalledPackage) (fuel : Nat)
    (names : List String) : Option (Except ResolveError (List Package)) :=
  match resolveGo repo inst fuel names ⟨[], [], []⟩ with
  | none => none
  | some (.error e) => some (.error e)
  | some (.ok st) => some (.ok st.sorted)

/-! Soundness of the resolver (C5) and the provider-selection contract (C4). -/

/-- A dependency name is satisfied by the partial result list `pre` or by an
installed package, by exact name or by a `provides` entry. -/
def satBy (pre : List Package) (inst : List InstalledPackage) (dep : String) : Prop :=
  (∃ q ∈ pre, q.name = dep ∨ dep ∈ q.provides) ∨
  (∃ p ∈ inst, p.name = dep ∨ dep ∈ p.provides)

/-- Resolver soundness: every dependency of the `i`-th output package is
satisfied by an earlier output package or by an installed package. -/
def SoundList (inst : List InstalledPackage) (L : List Package) : Prop :=
  ∀ i (hi : i < L.length), ∀ dep ∈ (L.get ⟨i, hi⟩).deps, satBy (L.take i) inst dep

/-- DFS state invariant: every black name is the name of an output package,
and every output package came from the repo catalog. -/
def StInv (repo : List Package) (st : RState) : Prop :=
  (∀ n ∈ st.visited, ∃ q ∈ st.sorted, q.name = n) ∧ (∀ q ∈ st.sorted, q ∈ repo)

theorem satBy_mono (pre t : List Package) (inst : List InstalledPackage) (dep : String)
    (h : satBy pre inst dep) : satBy (pre ++ t) inst dep := by
  rcases h with ⟨q, hq, hqp⟩ | h
  · exact Or.inl ⟨q, List.mem_append_left t hq, hqp⟩
  · exact Or.inr h

theorem soundAppend (inst : List InstalledPackage) (L : List Package) (p : Package)
    (hL : SoundList inst L) (hp : ∀ dep ∈ p.deps, satBy L inst dep) :
    SoundList inst (L ++ [p]) := by
  intro i hi dep hdep
  by_cases hlt : i < L.length
  · have hget : (L ++ [p]).get ⟨i, hi⟩ = L.get ⟨i, hlt⟩ := List.get_append i hlt
    rw [hget] at hdep
    rw [List.take_append_of_le_length (Nat.le_of_lt hlt)]
    exact hL i hlt dep hdep
  · have hlen : i = L.length := by
      simp only [List.length_append, List.length_singleton] at hi
      omega
    subst hlen
    have hget : (L ++ [p]).get ⟨L.length, hi⟩ = p := List.get_of_append rfl rfl
    rw [hget] at hdep
    rw [List.take_append_of_le_length (Nat.le_refl _)]
    rw [List.take_length]
    exact hp dep hdep

theorem nodupMapInj {α β : Type} (f : α → β) :
    ∀ (l : List α), (l.map f).Nodup → ∀ x ∈ l, ∀ y ∈ l, f x = f y → x = y := by
  intro l
  induction l with
  | nil => intro _ x hx; cases hx
  | cons a as ih =>
    intro hn x hx y hy hf
    rw [List.map_cons, List.nodup_cons] at hn
    rcases List.mem_cons.mp hx with rfl | hxs
    · rcases List.mem_cons.mp hy with rfl | hys
      · rfl
      · exact absurd (by rw [hf]; exact List.mem_map_of_mem f hys) hn.1
    · rcases List.mem_cons.mp hy with rfl | hys
      · exact absurd (by rw [← hf]; exact List.mem_map_of_mem f hxs) hn.1
      · exact ih hn.2 x hxs y hys hf

theorem foldFindLast (dep : String) :
    ∀ (l : List Package) (acc : Option Package) (p : Package),
      l.foldl (fun acc q => if q.name = dep then some q else acc) acc = some p →
      (p ∈ l ∧ p.name = dep) ∨ acc = some p := by
  intro l
  induction l with
  | nil => intro acc p h; exact Or.inr h
  | cons a as ih =>
    intro acc p h
    rw [List.foldl_cons] at h
    rcases ih _ p h with ⟨hm, hn⟩ | hacc
    · exact Or.inl ⟨List.mem_cons_of_mem a hm, hn⟩
    · by_cases ha : a.name = dep
      · rw [if_pos ha] at hacc
        injection hacc with hacc
        subst hacc
        exact Or.inl ⟨List.mem_cons_self a as, ha⟩
      · rw [if_neg ha] at hacc
        exact Or.inr hacc

theorem foldFindNone (dep : String) :
    ∀ (l : List Package), (∀ p ∈ l, p.name ≠ dep) →
      ∀ acc : Option Package,
        l.foldl (fun acc q => if q.name = dep then some q else acc) acc = acc := by
  intro l
  induction l with
  | nil => intro _ acc; rfl
  | cons a as ih =>
    intro hne acc
    rw [List.foldl_cons, if_neg (hne a (List.mem_cons_self a as))]
    exact ih (fun p hp => hne p (List.mem_cons_of_mem a hp)) acc

theorem selectProvider_ok_mem (repo : List Package) (dep : String) (p : Package)
    (h : selectProvider repo dep = .ok p) :
    p ∈ repo ∧ (p.name = dep ∨ dep ∈ p.provides) := by
  rw [selectProvider] at h
  cases hr : repo.foldl (fun acc q => if q.name = dep then some q else acc)
      (none : Option Package) with
  | some q =>
    rw [hr] at h
    have hqp : q = p := by injection h
    subst hqp
    rcases foldFindLast dep repo none q hr with ⟨hm, hn⟩ | hacc
    · exact ⟨hm, Or.inl hn⟩
    · cases hacc
  | none =>
    rw [hr] at h
    cases hv : repo.filter (fun q => q.name != dep && q.provides.contains dep) with
    | nil => rw [hv] at h; cases h
    | cons q rest =>
      cases rest with
      | nil =>
        rw [hv] at h
        have hqp : q = p := by injection h
        subst hqp
        have := List.mem_filter.mp (hv ▸ List.mem_cons_self q ([] : List Package))
        refine ⟨this.1, Or.inr ?_⟩
        have hb := this.2
        simp only [Bool.and_eq_true] at hb
        exact List.mem_of_elem_eq_true hb.2
      | cons q2 rest2 => rw [hv] at h; cases h

/-- Names satisfied through a state's `sorted`/`visited`/installed data are
`satBy`-satisfied; the workhorse induction over the DFS. -/
theorem dfs_sound (repo : List Package) (inst : List InstalledPackage)
    (hnodup : (repo.map Package.name).Nodup) :
    ∀ fuel dep st st', StInv repo st →
      dfsVisit repo inst fuel dep st = some (.ok st') →
      (∃ t, st'.sorted = st.sorted ++ t) ∧ StInv repo st' ∧
      (SoundList inst st.sorted → SoundList inst st'.sorted) ∧
      satBy st'.sorted inst dep := by
  have nameInj : ∀ q ∈ repo, ∀ p ∈ repo, q.name = p.name → q = p :=
    fun q hq p hp => nodupMapInj Package.name repo hnodup q hq p hp
  intro fuel
  induction fuel with
  | zero =>
    intro dep st st' _ h
    simp [dfsVisit] at h
  | succ fuel ih =>
    have ihDeps : ∀ ds st st', StInv repo st →
        dfsDeps (dfsVisit repo inst fuel) ds st = some (.ok st') →
        (∃ t, st'.sorted = st.sorted ++ t) ∧ StInv repo st' ∧
        (SoundList inst st.sorted → SoundList inst st'.sorted) ∧
        (∀ d ∈ ds, satBy st'.sorted inst d) := by
      intro ds
      induction ds with
      | nil =>
        intro st st' hinv h
        rw [dfsDeps] at h
        have hst : st = st' := by
          injection h with h
          injection h
        subst hst
        exact ⟨⟨[], by simp⟩, hinv, fun hs => hs, by simp⟩
      | cons d ds ihd =>
        intro st st' hinv h
        rw [dfsDeps] at h
        cases hf : dfsVisit repo inst fuel d st with
        | none => rw [hf] at h; cases h
        | some r =>
          cases r with
          | error e => rw [hf] at h; injection h with h; injection h
          | ok st2 =>
            rw [hf] at h
            obtain ⟨⟨t1, hgrow1⟩, hinv2, hsound1, hsat1⟩ := ih d st st2 hinv hf
            obtain ⟨⟨t2, hgrow2⟩, hinv3, hsound2, hsat2⟩ := ihd st2 st' hinv2 h
            refine ⟨⟨t1 ++ t2, by rw [hgrow2, hgrow1, List.append_assoc]⟩, hinv3,
              fun hs => hsound2 (hsound1 hs), ?_⟩
            intro d0 hd0
            rcases List.mem_cons.mp hd0 with rfl | hmem
            · rw [hgrow2]
              exact satBy_mono _ t2 inst d0 hsat1
            · exact hsat2 d0 hmem
    intro dep st st' hinv h
    rw [dfsVisit] at h
    by_cases h1 : st.visited.contains dep = true
    · rw [if_pos h1] at h
      have hst : st = st' := by
        injection h with h
        injection h
      subst hst
      obtain ⟨q, hq, hqn⟩ := hinv.1 dep (List.mem_of_elem_eq_true h1)
      exact ⟨⟨[], by simp⟩, hinv, fun hs => hs, Or.inl ⟨q, hq, Or.inl hqn⟩⟩
    · rw [if_neg h1] at h
      by_cases h2 : st.sorted.any (fun p => p.name == dep || p.provides.contains dep) = true
      · rw [if_pos h2] at h
        have hst : st = st' := by
          injection h with h
          injection h
        subst hst
        obtain ⟨q, hq, hqp⟩ := List.any_eq_true.mp h2
        refine ⟨⟨[], by simp⟩, hinv, fun hs => hs, Or.inl ⟨q, hq, ?_⟩⟩
        rw [Bool.or_eq_true] at hqp
        rcases hqp with hn | hp
        · exact Or.inl (by simpa using hn)
        · exact Or.inr (List.mem_of_elem_eq_true hp)
      · rw [if_neg h2] at h
        by_cases h3 : inst.any (fun p => p.name == dep || p.provides.contains dep) = true
        · rw [if_pos h3] at h
          have hst : st = st' := by
            injection h with h
            injection h
          subst hst
          obtain ⟨q, hq, hqp⟩ := List.any_eq_true.mp h3
          refine ⟨⟨[], by simp⟩, hinv, fun hs => hs, Or.inr ⟨q, hq, ?_⟩⟩
          rw [Bool.or_eq_true] at hqp
          rcases hqp with hn | hp
          · exact Or.inl (by simpa using hn)
          · exact Or.inr (List.mem_of_elem_eq_true hp)
        · rw [if_neg h3] at h
          cases hsel : selectProvider repo dep with
          | error e => rw [hsel] at h; injection h with h; injection h
          | ok p =>
            rw [hsel] at h
            dsimp only at h
            obtain ⟨hpmem, hpsat⟩ := selectProvider_ok_mem repo dep p hsel
            by_cases h4 : st.visited.contains p.name = true
            · rw [if_pos h4] at h
              have hst : st = st' := by
                injection h with h
                injection h
              subst hst
              obtain ⟨q, hq, hqn⟩ := hinv.1 p.name (List.mem_of_elem_eq_true h4)
              refine ⟨⟨[], by simp⟩, hinv, fun hs => hs, Or.inl ⟨q, hq, ?_⟩⟩
              rcases hpsat with hn | hp
              · exact Or.inl (hqn.trans hn)
              · have hqp : q = p := nameInj q (hinv.2 q hq) p hpmem hqn
                rw [hqp]
                exact Or.inr hp
            · rw [if_neg h4] at h
              by_cases h5 : st.visiting.contains p.name = true
              · rw [if_pos h5] at h
                injection h with h
                injection h
              · rw [if_neg h5] at h
                cases hd : dfsDeps (dfsVisit repo inst fuel) p.deps
                    ({ st with visiting := p.name :: st.visiting }) with
                | none => rw [hd] at h; cases h
                | some r =>
                  cases r with
                  | error e => rw [hd] at h; injection h with h; injection h
                  | ok st2 =>
                    rw [hd] at h
                    dsimp only at h
                    injection h with h
                    injection h with h
                    subst h
                    obtain ⟨⟨t, hgrow⟩, hinv2, hsound, hsat⟩ :=
                      ihDeps p.deps ({ st with visiting := p.name :: st.visiting }) st2 hinv hd
                    have hgrow2 : st2.sorted = st.sorted ++ t := hgrow
                    have hsound2 : SoundList inst st.sorted → SoundList inst st2.sorted :=
                      hsound
                    have hpin : p ∈ st2.sorted ++ [p] :=
                      List.mem_append_right _ (List.mem_cons_self p [])
                    refine ⟨⟨t ++ [p], ?_⟩, ⟨?_, ?_⟩, ?_, ?_⟩
                    · show st2.sorted ++ [p] = st.sorted ++ (t ++ [p])
                      rw [hgrow2, List.append_assoc]
                    · show ∀ n ∈ p.name :: st2.visited, ∃ q ∈ st2.sorted ++ [p], q.name = n
                      intro n hn
                      rcases List.mem_cons.mp hn with rfl | hn
                      · exact ⟨p, hpin, rfl⟩
                      · obtain ⟨q, hq, hqn⟩ := hinv2.1 n hn
                        exact ⟨q, List.mem_append_left _ hq, hqn⟩
                    · show ∀ q ∈ st2.sorted ++ [p], q ∈ repo
                      intro q hq
                      rcases List.mem_append.mp hq with hq | hq
                      · exact hinv2.2 q hq
                      · rw [List.mem_singleton.mp hq]
                        exact hpmem
                    · show SoundList inst st.sorted → SoundList inst (st2.sorted ++ [p])
                      intro hs
                      exact soundAppend inst st2.sorted p (hsound2 hs) hsat
                    · show satBy (st2.sorted ++ [p]) inst dep
                      exact Or.inl ⟨p, hpin, hpsat⟩

/-- Soundness through `resolve`'s top-level loop. -/
theorem resolveGo_sound (repo : List Package) (inst : List InstalledPackage)
    (hnodup : (repo.map Package.name).Nodup) (fuel : Nat) :
    ∀ names st st', StInv repo st →
      resolveGo repo inst fuel names st = some (.ok st') →
      StInv repo st' ∧ (SoundList inst st.sorted → SoundList inst st'.sorted) := by
  intro names
  induction names with
  | nil =>
    intro st st' hinv h
    rw [resolveGo] at h
    have hst : st = st' := by
      injection h with h
      injection h
    subst hst
    exact ⟨hinv, fun hs => hs⟩
  | cons n ns ih =>
    intro st st' hinv h
    rw [resolveGo] at h
    by_cases h1 : st.visited.contains n = true
    · rw [if_pos h1] at h
      exact ih st st' hinv h
    · rw [if_neg h1] at h
      cases hf : dfsVisit repo inst fuel n st with
      | none => rw [hf] at h; cases h
      | some r =>
        cases r with
        | error e => rw [hf] at h; injection h with h; injection h
        | ok st2 =>
          rw [hf] at h
          obtain ⟨-, hinv2, hsound, -⟩ :=
            dfs_sound repo inst hnodup fuel n st st2 hinv hf
          obtain ⟨hinv3, hsound2⟩ := ih st2 st' hinv2 h
          exact ⟨hinv3, fun hs => hsound2 (hsound hs)⟩

/-- The two-package cycle of the spec's scenario 3. -/
def cycRepo : List Package :=
  [{ name := "A", deps := ["B"] }, { name := "B", deps := ["A"] }]

/-- C5: for every successful `resolve` run over a repo catalog with distinct
package names, every dependency of `L[i]` is satisfied by some earlier
`L[j]` (`j < i`, by name or `provides`) or by an installed package; and on
the spec's two-package cycle, `resolve` fails with `CircularDependency`
instead of returning a list. -/
theorem claim_C5 :
    (∀ (repo : List Package) (inst : List InstalledPackage) (fuel : Nat)
        (names : List String) (L : List Package),
      (repo.map Package.name).Nodup →
      resolve repo inst fuel names = some (.ok L) →
      SoundList inst L) ∧
    resolve cycRepo [] 10 ["A"] = some (.error .CircularDependency) := by
  constructor
  · intro repo inst fuel names L hnodup h
    rw [resolve] at h
    cases hg : resolveGo repo inst fuel names ⟨[], [], []⟩ with
    | none => rw [hg] at h; cases h
    | some r =>
      cases r with
      | error e => rw [hg] at h; injection h with h; injection h
      | ok st =>
        rw [hg] at h
        have hL : st.sorted = L := by
          injection h with h
          injection h
        obtain ⟨-, hsound⟩ := resolveGo_sound repo inst hnodup fuel names ⟨[], [], []⟩ st
          ⟨by simp, by simp⟩ hg
        rw [← hL]
        apply hsound
        intro i hi
        simp at hi
  · decide

/-- The linear chain of the spec's scenario 1, for the C5 witness. -/
def chainRepo : List Package :=
  [{ name := "A" }, { name := "B", deps := ["A"] }, { name := "C", deps := ["B"] }]

/-- Witness for C5 at a concrete input: the resolved chain is sound. -/
theorem claim_C5_witness :
    SoundList [] [{ name := "A" }, { name := "B", deps := ["A"] },
      { name := "C", deps := ["B"] }] :=
  claim_C5.1 chainRepo [] 10 ["C"] _ (by decide) (by decide)

theorem foldSomeStable (dep : String) :
    ∀ (l : List Package) (q : Package),
      l.foldl (fun acc p => if p.name = dep then some p else acc) (some q) ≠ none := by
  intro l
  induction l with
  | nil => intro q h; cases h
  | cons a as ih =>
    intro q
    rw [List.foldl_cons]
    by_cases ha : a.name = dep
    · rw [if_pos ha]; exact ih a
    · rw [if_neg ha]; exact ih q

theorem foldExistsSome (dep : String) :
    ∀ (l : List Package), (∃ p ∈ l, p.name = dep) →
      ∀ acc : Option Package,
        l.foldl (fun acc p => if p.name = dep then some p else acc) acc ≠ none := by
  intro l
  induction l with
  | nil => rintro ⟨p, hp, -⟩; cases hp
  | cons a as ih =>
    rintro ⟨p, hp, hname⟩ acc
    rw [List.foldl_cons]
    rcases List.mem_cons.mp hp with rfl | hmem
    · rw [if_pos hname]
      exact foldSomeStable dep as p
    · by_cases ha : a.name = dep
      · rw [if_pos ha]
        exact foldSomeStable dep as a
      · rw [if_neg ha]
        exact ih ⟨p, hmem, hname⟩ acc

theorem filterVirtEq (repo : List Package) (dep : String)
    (hne : ∀ p ∈ repo, p.name ≠ dep) :
    repo.filter (fun p => p.name != dep && p.provides.contains dep) =
      repo.filter (fun p => p.provides.contains dep) := by
  induction repo with
  | nil => rfl
  | cons a as ih =>
    have hna : (a.name != dep) = true := by
      simp [hne a (List.mem_cons_self a as)]
    have ih2 := ih (fun p hp => hne p (List.mem_cons_of_mem a hp))
    by_cases hc : a.provides.contains dep = true
    · simp only [List.filter_cons, hna, hc, Bool.true_and, if_true]
      rw [ih2]
    · rw [Bool.not_eq_true] at hc
      simp only [List.filter_cons, hna, hc, Bool.true_and, Bool.and_false, if_false]
      exact ih2

/-- C4: provider disambiguation.  Over the available catalog: an exact-name
match is always the chosen provider even when virtual providers exist; with
no exact match, a unique virtual provider is chosen, none at all is
`DependencyNotFound`, and two or more is `AmbiguousProvider`; and for a
dependency not satisfied by `visited`, the partial result list, or the
installed set, `dfs_visit` fails with exactly the provider-selection
error. -/
theorem claim_C4 :
    (∀ (repo : List Package) (dep : String),
      (∃ p ∈ repo, p.name = dep) →
      ∃ p, selectProvider repo dep = .ok p ∧ p.name = dep ∧ p ∈ repo) ∧
    (∀ (repo : List Package) (dep : String) (q : Package),
      (∀ p ∈ repo, p.name ≠ dep) →
      repo.filter (fun p => p.provides.contains dep) = [q] →
      selectProvider repo dep = .ok q) ∧
    (∀ (repo : List Package) (dep : String),
      (∀ p ∈ repo, p.name ≠ dep) →
      repo.filter (fun p => p.provides.contains dep) = [] →
      selectProvider repo dep = .error .DependencyNotFound) ∧
    (∀ (repo : List Package) (dep : String),
      (∀ p ∈ repo, p.name ≠ dep) →
      2 ≤ (repo.filter (fun p => p.provides.contains dep)).length →
      selectProvider repo dep = .error .AmbiguousProvider) ∧
    (∀ (repo : List Package) (inst : List InstalledPackage) (fuel : Nat)
        (dep : String) (st : RState) (e : ResolveError),
      st.visited.contains dep = false →
      st.sorted.any (fun p => p.name == dep || p.provides.contains dep) = false →
      inst.any (fun p => p.name == dep || p.provides.contains dep) = false →
      selectProvider repo dep = .error e →
      dfsVisit repo inst (fuel + 1) dep st = some (.error e)) := by
  refine ⟨?_, ?_, ?_, ?_, ?_⟩
  · intro repo dep hex
    cases hr : repo.foldl (fun acc q => if q.name = dep then some q else acc)
        (none : Option Package) with
    | none => exact absurd hr (foldExistsSome dep repo hex none)
    | some q =>
      rcases foldFindLast dep repo none q hr with ⟨hm, hn⟩ | hacc
      · refine ⟨q, ?_, hn, hm⟩
        rw [selectProvider]
        rw [hr]
      · cases hacc
  · intro repo dep q hne hfilter
    have hfold := foldFindNone dep repo hne (none : Option Package)
    rw [selectProvider, hfold, filterVirtEq repo dep hne, hfilter]
  · intro repo dep hne hfilter
    have hfold := foldFindNone dep repo hne (none : Option Package)
    rw [selectProvider, hfold, filterVirtEq repo dep hne, hfilter]
  · intro repo dep hne hlen
    have hfold := foldFindNone dep repo hne (none : Option Package)
    rw [selectProvider, hfold, filterVirtEq repo dep hne]
    cases hv : repo.filter (fun p => p.provides.contains dep) with
    | nil => rw [hv] at hlen; simp at hlen
    | cons q1 rest =>
      cases rest with
      | nil => rw [hv] at hlen; simp at hlen
      | cons q2 rest2 => rfl
  · intro repo inst fuel dep st e h1 h2 h3 hsel
    rw [dfsVisit, if_neg (by rw [h1]; simp), if_neg (by rw [h2]; simp),
      if_neg (by rw [h3]; simp), hsel]

/-- Two virtual providers of the same name, for the C4 witness. -/
def c4repo : List Package :=
  [{ name := "P1", provides := ["X"] }, { name := "P2", provides := ["X"] }]

/-- Witness for C4 at a concrete input: two virtual providers of `"X"` and
no exact match fail with `AmbiguousProvider`, through provider selection and
through `dfs_visit`. -/
theorem claim_C4_witness :
    selectProvider c4repo "X" = .error .AmbiguousProvider ∧
    dfsVisit c4repo [] 5 "X" ⟨[], [], []⟩ = some (.error .AmbiguousProvider) :=
  ⟨claim_C4.2.2.2.1 c4repo "X" (by decide) (by decide),
   claim_C4.2.2.2.2 c4repo [] 4 "X" ⟨[], [], []⟩ .AmbiguousProvider
     (by decide) (by decide) (by decide) (by decide)⟩

/-! ## C1, C6 — the transactional executor (package_manager.cpp:404-587, 875-893)

`PackageManager::execute_transaction`.  Phase 0 creates
`<cache>/tx/<id>/backup`.  Phase 1 atomically moves every existing owned
file of every package to remove into the backup tree, recording the mapping
in the journal.  Phase 1b resolves each nonempty `pre_remove_script`
against the LIVE root (`m_root_path / script`) and runs it only when that
path still exists.  Phase 2, per install item: clear and repopulate a
staging directory from the archive, run `pre_install` from staging, then
move every manifest file to its final destination (existing destination =
`FileConflict`), journaling each move, and remove the staging directory.
Phase 3 commits the database; failure is `FileSystemError`.  Post hooks run
scripts only (the sandbox exposes no filesystem access, so they have no
filesystem effect in the model).  Any `TransactionException` triggers
`rollback_transaction` — delete journaled new files in reverse order, then
move each existing backup back to its original path — followed by removal
of the workspace, and the triggering error is returned.

Modelling notes: the transaction id and current date are parameters
(`txid`, a fresh timestamp in C++); script results, archive contents and
the database-commit outcome come from an oracle; the journal, internal in
C++, is exposed in the result record for verification.  The C++ rollback
iterates `old_files_backed_up` as a `std::map` in key order — the
embedding keeps insertion order; under the theorem's freshness hypotheses
the backup restores are pairwise independent, so the order is
irrelevant. -/

/-- `var/cache/aurora/pkg`, the cache directory relative to the root. -/
def cacheRel : Path := ["var", "cache", "aurora", "pkg"]

/-- `<cache>/tx/<id>`, the transaction workspace. -/
def txWorkspace (R : Path) (txid : String) : Path := R ++ cacheRel ++ ["tx", txid]

/-- `<workspace>/backup`. -/
def txBackupDir (R : Path) (txid : String) : Path := txWorkspace R txid ++ ["backup"]

/-- `<cache>/staging`, the parent of all per-package staging directories. -/
def stagingRoot (R : Path) : Path := R ++ cacheRel ++ ["staging"]

/-- `<cache>/staging/<name>`, one package's staging directory. -/
def stagingDir (R : Path) (name : String) : Path := stagingRoot R ++ [name]

/-- The executor's environment: script run outcomes (keyed by script path),
archive contents keyed by archive path (`none` = extraction failure, `some
entries` = relative path/content pairs), and the database commit outcome. -/
structure ExecEnv where
  scriptOk : Path → Bool
  archives : Path → Option (List (Path × String))
  dbCommitOk : Bool

/-- `FileSystemJournal` (package_manager.h): the rollback log. -/
structure FileSystemJournal where
  new_files_committed : List Path := []
  old_files_backed_up : List (Path × Path) := []

/-- `std::filesystem::rename` in the map model. -/
def moveFile (a b : Path) (fs : FS) : FS :=
  fun p => if p = b then fs a else if p = a then none else fs p

/-- `std::filesystem::remove`. -/
def removeFile (p0 : Path) (fs : FS) : FS :=
  fun p => if p = p0 then none else fs p

/-- A file write (extraction of one archive entry). -/
def writeFile (p0 : Path) (c : String) (fs : FS) : FS :=
  fun p => if p = p0 then some c else fs p

/-- `std::filesystem::remove_all`. -/
def removeTree (base : Path) (fs : FS) : FS :=
  fun p => if startsWithSeg base p then none else fs p

/-- The inner loop of Phase 1 over one package's `owned_files`
(package_manager.cpp:430-441): move each live file into the backup tree and
journal the mapping. -/
def backupFiles (R txb : Path) : List Path → FS × List (Path × Path) → FS × List (Path × Path)
  | [], s => s
  | f :: rest, (fs, j) =>
    let src := R ++ f
    let bkp := txb ++ f
    if (fs src).isSome then backupFiles R txb rest (moveFile src bkp fs, j ++ [(src, bkp)])
    else backupFiles R txb rest (fs, j)

/-- Phase 1 over the whole removal set. -/
def phase1 (R txb : Path) : List InstalledPackage → FS × List (Path × Path) → FS × List (Path × Path)
  | [], s => s
  | pkg :: rest, s => phase1 R txb rest (backupFiles R txb pkg.owned_files s)

/-- Phase 1b (package_manager.cpp:444-457): resolve each nonempty
`pre_remove_script` against the live root; run it only when that path still
exists; a failing run aborts with `ScriptletFailed`. -/
def runPreRemove (R : Path) (env : ExecEnv) : List InstalledPackage → FS → Option TransactionError
  | [], _ => none
  | pkg :: rest, fs =>
    if pkg.pre_remove_script ≠ [] then
      if (fs (R ++ pkg.pre_remove_script)).isSome then
        if env.scriptOk (R ++ pkg.pre_remove_script) then runPreRemove R env rest fs
        else some .ScriptletFailed
      else runPreRemove R env rest fs
    else runPreRemove R env rest fs

/-- Phase 2 file moves (package_manager.cpp:487-500): move each manifest
file from staging to its destination, failing on an existing destination,
journaling each move. -/
def moveStaged (stg R : Path) : List Path → FS → List Path →
    FS × List Path × Option TransactionError
  | [], fs, jn => (fs, jn, none)
  | f :: rest, fs, jn =>
    if (fs (R ++ f)).isSome then (fs, jn, some .FileConflict)
    else moveStaged stg R rest (moveFile (stg ++ f) (R ++ f) fs) (jn ++ [R ++ f])

/-- Extraction of the archive entries into the staging directory. -/
def writeEntries (stg : Path) : List (Path × String) → FS → FS
  | [], fs => fs
  | (f, c) :: rest, fs => writeEntries stg rest (writeFile (stg ++ f) c fs)

/-- The installed record built at the end of one Phase 2 iteration
(package_manager.cpp:503-508); the wall-clock `install_date` is modelled as
a constant. -/
def mkInstalled (pkg : Package) (manifest : List Path) : InstalledPackage :=
  { toPackage := pkg, install_date := "date", owned_files := manifest }

/-- One Phase 2 iteration (package_manager.cpp:462-509). -/
def installOne (R : Path) (env : ExecEnv) (item : PackageInstallation) (fs : FS)
    (jn : List Path) : FS × List Path × List InstalledPackage × Option TransactionError :=
  let stg := stagingDir R item.metadata.name
  let fs1 := removeTree stg fs
  match env.archives item.downloaded_archive_path with
  | none => (fs1, jn, [], some .ExtractionFailed)
  | some entries =>
    let fs2 := writeEntries stg entries fs1
    let manifest := entries.map (fun e => e.1)
    if item.metadata.pre_install_script ≠ [] &&
        !(env.scriptOk (stg ++ item.metadata.pre_install_script)) then
      (fs2, jn, [], some .ScriptletFailed)
    else
      match moveStaged stg R manifest fs2 jn with
      | (fs3, jn3, some e) => (fs3, jn3, [], some e)
      | (fs3, jn3, none) =>
        (removeTree stg fs3, jn3, [mkInstalled item.metadata manifest], none)

/-- Phase 2 over the whole install set. -/
def phase2 (R : Path) (env : ExecEnv) : List PackageInstallation → FS → List Path →
    FS × List Path × List InstalledPackage × Option TransactionError
  | [], fs, jn => (fs, jn, [], none)
  | item :: rest, fs, jn =>
    match installOne R env item fs jn with
    | (fs1, jn1, _, some e) => (fs1, jn1, [], some e)
    | (fs1, jn1, done, none) =>
      match phase2 R env rest fs1 jn1 with
      | (fs2, jn2, done2, r) => (fs2, jn2, done ++ done2, r)

/-- Modelled from the spec: `Database::perform_transactional_update` is
declared in the database header and called at Phase 3, but its definition
is not among the sources; per spec 4.5 it applies all removes and all adds
in one database transaction — all or nothing — returning false (prior
contents intact) on failure. -/
def perform_transactional_update (ok : Bool) (adds : List InstalledPackage)
    (removes : List String) (db : List InstalledPackage) : Option (List InstalledPackage) :=
  if ok then some ((db.filter (fun p => !(removes.contains p.name))) ++ adds) else none

/-- The reverse-order deletion pass of rollback. -/
def deleteFiles : List Path → FS → FS
  | [], fs => fs
  | p :: rest, fs => deleteFiles rest (removeFile p fs)

/-- The restore pass of rollback: move each still-existing backup back. -/
def restoreAll : List (Path × Path) → FS → FS
  | [], fs => fs
  | (o, b) :: rest, fs =>
    restoreAll rest (if (fs b).isSome then moveFile b o fs else fs)

/-- `PackageManager::rollback_transaction` (package_manager.cpp:875-893). -/
def rollback_transaction (j : FileSystemJournal) (fs : FS) : FS :=
  restoreAll j.old_files_backed_up (deleteFiles j.new_files_committed.reverse fs)

/-- Result of one executor run: the returned value, the filesystem, the
installed database, and (exposed for verification) the journal. -/
structure ExecOut where
  res : Option TransactionError
  fs : FS
  db : List InstalledPackage
  journal : FileSystemJournal

/-- The catch-block of `execute_transaction`: roll back, remove the
workspace, and return the triggering error. -/
def mkFail (txWs : Path) (e : TransactionError) (j : FileSystemJournal) (fs : FS)
    (db : List InstalledPackage) : ExecOut :=
  ⟨some e, removeTree txWs (rollback_transaction j fs), db, j⟩

/-- `PackageManager::execute_transaction` (package_manager.cpp:404-587). -/
def execute_transaction (R : Path) (txid : String) (env : ExecEnv) (plan : Transaction)
    (fs0 : FS) (db0 : List InstalledPackage) : ExecOut :=
  if plan.is_empty then ⟨none, fs0, db0, {}⟩
  else
    let txWs := txWorkspace R txid
    let txb := txBackupDir R txid
    match phase1 R txb plan.to_remove (fs0, []) with
    | (fs1, jold) =>
      match runPreRemove R env plan.to_remove fs1 with
      | some e => mkFail txWs e ⟨[], jold⟩ fs1 db0
      | none =>
        match phase2 R env plan.to_install fs1 [] with
        | (fs2, jn, completed, r) =>
          match r with
          | some e => mkFail txWs e ⟨jn, jold⟩ fs2 db0
          | none =>
            match perform_transactional_update env.dbCommitOk completed
                (plan.to_remove.map (fun p => p.name)) db0 with
            | none => mkFail txWs .FileSystemError ⟨jn, jold⟩ fs2 db0
            | some db1 => ⟨none, removeTree txWs fs2, db1, ⟨jn, jold⟩⟩

/-! Region lemmas: the backup tree lies inside the transaction workspace,
staging paths lie inside the staging root, and the two regions are
disjoint. -/

theorem startsWithSeg_sub (a b q : Path) (h : startsWithSeg (a ++ b) q = true) :
    startsWithSeg a q = true := by
  rw [startsWithSeg_iff] at h ⊢
  obtain ⟨t, rfl⟩ := h
  exact ⟨b ++ t, by rw [List.append_assoc]⟩

theorem bkp_under_tx (R : Path) (txid : String) (f : Path) :
    startsWithSeg (txWorkspace R txid) (txBackupDir R txid ++ f) = true := by
  rw [startsWithSeg_iff]
  exact ⟨["backup"] ++ f, by rw [txBackupDir, List.append_assoc]⟩

theorem stg_under_stgRoot (R : Path) (name : String) (e : Path) :
    startsWithSeg (stagingRoot R) (stagingDir R name ++ e) = true := by
  rw [startsWithSeg_iff]
  exact ⟨[name] ++ e, by rw [stagingDir, List.append_assoc]⟩

theorem tx_stg_disjoint (R : Path) (txid : String) (q : Path)
    (h1 : startsWithSeg (txWorkspace R txid) q = true)
    (h2 : startsWithSeg (stagingRoot R) q = true) : False := by
  rw [startsWithSeg_iff] at h1 h2
  obtain ⟨t1, rfl⟩ := h1
  obtain ⟨t2, ht2⟩ := h2
  rw [txWorkspace, stagingRoot] at ht2
  rw [List.append_assoc (R ++ cacheRel), List.append_assoc (R ++ cacheRel)] at ht2
  have hh := List.append_cancel_left ht2
  have : "tx" = "staging" := by injection hh
  exact absurd this (by decide)

theorem ne_of_startsWithSeg (base p q : Path)
    (hp : startsWithSeg base p = true) (hq : startsWithSeg base q = false) : p ≠ q := by
  intro h
  rw [h, hq] at hp
  cases hp

/-- Phase-1 invariant: journal shape, backups intact and sourced from live
originals, originals emptied, and the rest of the filesystem (outside the
workspace) untouched. -/
structure Inv1 (R : Path) (txid : String) (fs0 fs : FS)
    (jold : List (Path × Path)) : Prop where
  jshape : ∀ ob ∈ jold, ∃ f, ob.1 = R ++ f ∧ ob.2 = txBackupDir R txid ++ f
  jback : ∀ ob ∈ jold, fs ob.2 = fs0 ob.1
  jsome : ∀ ob ∈ jold, fs0 ob.1 ≠ none
  jotx : ∀ ob ∈ jold, startsWithSeg (txWorkspace R txid) ob.1 = false
  jnodup : (jold.map Prod.fst).Nodup
  forig : ∀ ob ∈ jold, fs ob.1 = none
  dall : ∀ q, startsWithSeg (txWorkspace R txid) q = false →
    (∀ b, (q, b) ∉ jold) → fs q = fs0 q

/-- Phase-2 invariant: backups still intact, journaled new files were
absent pre-transaction (or were backed-up originals), new files never
collide with backups, and paths outside the work areas and the journal are
untouched. -/
structure Inv2 (R : Path) (txid : String) (fs0 fs : FS)
    (jold : List (Path × Path)) (jn : List Path) : Prop where
  jshape : ∀ ob ∈ jold, ∃ f, ob.1 = R ++ f ∧ ob.2 = txBackupDir R txid ++ f
  jback : ∀ ob ∈ jold, fs ob.2 = fs0 ob.1
  jsome : ∀ ob ∈ jold, fs0 ob.1 ≠ none
  jotx : ∀ ob ∈ jold, startsWithSeg (txWorkspace R txid) ob.1 = false
  jnodup : (jold.map Prod.fst).Nodup
  bnew : ∀ p ∈ jn, fs0 p = none ∨ ∃ b, (p, b) ∈ jold
  cnew : ∀ p ∈ jn, ∀ ob ∈ jold, p ≠ ob.2
  dcur : ∀ q, startsWithSeg (txWorkspace R txid) q = false →
    startsWithSeg (stagingRoot R) q = false →
    (∀ b, (q, b) ∉ jold) → q ∉ jn → fs q = fs0 q

theorem inv2_of_inv1 (R : Path) (txid : String) (fs0 fs : FS)
    (jold : List (Path × Path)) (h : Inv1 R txid fs0 fs jold) :
    Inv2 R txid fs0 fs jold [] where
  jshape := h.jshape
  jback := h.jback
  jsome := h.jsome
  jotx := h.jotx
  jnodup := h.jnodup
  bnew := by intro p hp; cases hp
  cnew := by intro p hp; cases hp
  dcur := fun q htx _ hj _ => h.dall q htx hj

theorem nodupSnoc {α : Type} (l : List α) (a : α) (hl : l.Nodup) (ha : a ∉ l) :
    (l ++ [a]).Nodup := by
  induction l with
  | nil => simp
  | cons x xs ih =>
    rw [List.nodup_cons] at hl
    rw [List.cons_append, List.nodup_cons]
    refine ⟨?_, ih hl.2 (fun hm => ha (List.mem_cons_of_mem x hm))⟩
    intro hmem
    rcases List.mem_append.mp hmem with hm | hm
    · exact hl.1 hm
    · apply ha
      rw [List.mem_singleton.mp hm]
      exact List.mem_cons_self a xs

theorem backupFiles_inv (R : Path) (txid : String) (fs0 : FS) :
    ∀ (files : List Path),
      (∀ f ∈ files, startsWithSeg (txWorkspace R txid) (R ++ f) = false) →
      ∀ fs jold, Inv1 R txid fs0 fs jold →
        Inv1 R txid fs0 (backupFiles R (txBackupDir R txid) files (fs, jold)).1
          (backupFiles R (txBackupDir R txid) files (fs, jold)).2 := by
  intro files
  induction files with
  | nil => intro _ fs jold h; exact h
  | cons f rest ih =>
    intro hf fs jold h
    have hfrest : ∀ g ∈ rest, startsWithSeg (txWorkspace R txid) (R ++ g) = false :=
      fun g hg => hf g (List.mem_cons_of_mem f hg)
    have hfhead := hf f (List.mem_cons_self f rest)
    rw [backupFiles]
    by_cases hsome : (fs (R ++ f)).isSome = true
    · rw [if_pos hsome]
      apply ih hfrest
      have hnotorig : ∀ b, (R ++ f, b) ∉ jold := by
        intro b hb
        have := h.forig (R ++ f, b) hb
        rw [this] at hsome
        cases hsome
      have hfs0 : fs (R ++ f) = fs0 (R ++ f) := h.dall (R ++ f) hfhead hnotorig
      have hfs0some : fs0 (R ++ f) ≠ none := by
        rw [← hfs0]
        exact Option.isSome_iff_ne_none.mp hsome
      have hbkpTx : startsWithSeg (txWorkspace R txid) (txBackupDir R txid ++ f) = true :=
        bkp_under_tx R txid f
      have hsrcne : R ++ f ≠ txBackupDir R txid ++ f :=
        (ne_of_startsWithSeg _ _ _ hbkpTx hfhead).symm
      refine ⟨?_, ?_, ?_, ?_, ?_, ?_, ?_⟩
      · intro ob hob
        rcases List.mem_append.mp hob with hob | hob
        · exact h.jshape ob hob
        · rw [List.mem_singleton.mp hob]
          exact ⟨f, rfl, rfl⟩
      · intro ob hob
        rcases List.mem_append.mp hob with hob | hob
        · have hne1 : ob.2 ≠ txBackupDir R txid ++ f := by
            intro heq
            obtain ⟨g, hg1, hg2⟩ := h.jshape ob hob
            rw [hg2] at heq
            have hgf : g = f := List.append_cancel_left heq
            apply hnotorig ob.2
            have : ob.1 = R ++ f := by rw [hg1, hgf]
            rw [← this]
            exact hob
          have hne2 : ob.2 ≠ R ++ f := by
            obtain ⟨g, hg1, hg2⟩ := h.jshape ob hob
            rw [hg2]
            exact ne_of_startsWithSeg _ _ _ (bkp_under_tx R txid g) hfhead
          show moveFile (R ++ f) (txBackupDir R txid ++ f) fs ob.2 = fs0 ob.1
          rw [moveFile, if_neg hne1, if_neg hne2]
          exact h.jback ob hob
        · rw [List.mem_singleton.mp hob]
          show moveFile (R ++ f) (txBackupDir R txid ++ f) fs (txBackupDir R txid ++ f)
            = fs0 (R ++ f)
          rw [moveFile, if_pos rfl]
          exact hfs0
      · intro ob hob
        rcases List.mem_append.mp hob with hob | hob
        · exact h.jsome ob hob
        · rw [List.mem_singleton.mp hob]
          exact hfs0some
      · intro ob hob
        rcases List.mem_append.mp hob with hob | hob
        · exact h.jotx ob hob
        · rw [List.mem_singleton.mp hob]
          exact hfhead
      · rw [List.map_append]
        apply nodupSnoc _ _ h.jnodup
        intro hmem
        obtain ⟨ob, hob, hfst⟩ := List.mem_map.mp hmem
        apply hnotorig ob.2
        have hfst2 : ob.1 = R ++ f := hfst
        rw [← hfst2]
        simpa using hob
      · intro ob hob
        rcases List.mem_append.mp hob with hob | hob
        · have hne1 : ob.1 ≠ txBackupDir R txid ++ f :=
            ne_of_startsWithSeg _ _ _ (bkp_under_tx R txid f) (h.jotx ob hob) |>.symm
          have hne2 : ob.1 ≠ R ++ f := by
            intro heq
            have hnone := h.forig ob hob
            rw [heq] at hnone
            rw [hnone] at hfs0
            exact hfs0some hfs0.symm
          show moveFile (R ++ f) (txBackupDir R txid ++ f) fs ob.1 = none
          rw [moveFile, if_neg hne1, if_neg hne2]
          exact h.forig ob hob
        · rw [List.mem_singleton.mp hob]
          show moveFile (R ++ f) (txBackupDir R txid ++ f) fs (R ++ f) = none
          rw [moveFile, if_neg hsrcne, if_pos rfl]
      · intro q hqtx hqorig
        have hq1 : q ≠ txBackupDir R txid ++ f :=
          (ne_of_startsWithSeg _ _ _ (bkp_under_tx R txid f) hqtx).symm
        have hq2 : q ≠ R ++ f := by
          intro heq
          exact hqorig (txBackupDir R txid ++ f)
            (by rw [heq]; exact List.mem_append_right _ (List.mem_cons_self _ _))
        show moveFile (R ++ f) (txBackupDir R txid ++ f) fs q = fs0 q
        rw [moveFile, if_neg hq1, if_neg hq2]
        exact h.dall q hqtx (fun b hb => hqorig b (List.mem_append_left _ hb))
    · rw [if_neg hsome]
      exact ih hfrest fs jold h

theorem phase1_inv (R : Path) (txid : String) (fs0 : FS) :
    ∀ (pkgs : List InstalledPackage),
      (∀ pkg ∈ pkgs, ∀ f ∈ pkg.owned_files,
        startsWithSeg (txWorkspace R txid) (R ++ f) = false) →
      ∀ fs jold, Inv1 R txid fs0 fs jold →
        Inv1 R txid fs0 (phase1 R (txBackupDir R txid) pkgs (fs, jold)).1
          (phase1 R (txBackupDir R txid) pkgs (fs, jold)).2 := by
  intro pkgs
  induction pkgs with
  | nil => intro _ fs jold h; exact h
  | cons pkg rest ih =>
    intro hown fs jold h
    rw [phase1]
    have h1 := backupFiles_inv R txid fs0 pkg.owned_files
      (hown pkg (List.mem_cons_self pkg rest)) fs jold h
    have := ih (fun p hp => hown p (List.mem_cons_of_mem pkg hp))
      (backupFiles R (txBackupDir R txid) pkg.owned_files (fs, jold)).1
      (backupFiles R (txBackupDir R txid) pkg.owned_files (fs, jold)).2 h1
    exact this

/-- The empty-journal state satisfies the Phase-1 invariant. -/
theorem inv1_init (R : Path) (txid : String) (fs0 : FS) :
    Inv1 R txid fs0 fs0 [] where
  jshape := by intro ob hob; cases hob
  jback := by intro ob hob; cases hob
  jsome := by intro ob hob; cases hob
  jotx := by intro ob hob; cases hob
  jnodup := List.nodup_nil
  forig := by intro ob hob; cases hob
  dall := fun _ _ _ => rfl

theorem backup_not_under_stg (R : Path) (txid : String) (b : Path)
    (hb : startsWithSeg (txWorkspace R txid) b = true) :
    startsWithSeg (stagingRoot R) b = false := by
  cases hc : startsWithSeg (stagingRoot R) b with
  | false => rfl
  | true => exact absurd (tx_stg_disjoint R txid b hb hc) (fun x => x)

/-- Filesystem changes confined to the staging root preserve the Phase-2
invariant. -/
theorem inv2_congr_outside_stg (R : Path) (txid : String) (fs0 fs fs2 : FS)
    (jold : List (Path × Path)) (jn : List Path)
    (hagree : ∀ q, startsWithSeg (stagingRoot R) q = false → fs2 q = fs q)
    (h : Inv2 R txid fs0 fs jold jn) : Inv2 R txid fs0 fs2 jold jn where
  jshape := h.jshape
  jback := by
    intro ob hob
    obtain ⟨f, hf1, hf2⟩ := h.jshape ob hob
    have htx : startsWithSeg (txWorkspace R txid) ob.2 = true := by
      rw [hf2]; exact bkp_under_tx R txid f
    rw [hagree ob.2 (backup_not_under_stg R txid ob.2 htx)]
    exact h.jback ob hob
  jsome := h.jsome
  jotx := h.jotx
  jnodup := h.jnodup
  bnew := h.bnew
  cnew := h.cnew
  dcur := by
    intro q htx hstg horig hjn
    rw [hagree q hstg]
    exact h.dcur q htx hstg horig hjn

theorem removeTree_outside (R : Path) (name : String) (fs : FS) (q : Path)
    (hq : startsWithSeg (stagingRoot R) q = false) :
    removeTree (stagingDir R name) fs q = fs q := by
  rw [removeTree]
  rw [if_neg ?_]
  intro hc
  rw [startsWithSeg_sub (stagingRoot R) [name] q (by rwa [← stagingDir])] at hq
  cases hq

theorem writeEntries_outside (R : Path) (name : String) :
    ∀ (entries : List (Path × String)) (fs : FS) (q : Path),
      startsWithSeg (stagingRoot R) q = false →
      writeEntries (stagingDir R name) entries fs q = fs q := by
  intro entries
  induction entries with
  | nil => intro fs q _; rfl
  | cons ec rest ih =>
    intro fs q hq
    obtain ⟨e, c⟩ := ec
    rw [writeEntries, ih _ q hq, writeFile, if_neg ?_]
    intro hc
    rw [hc] at hq
    rw [stg_under_stgRoot R name e] at hq
    cases hq

theorem moveStaged_inv (R : Path) (txid : String) (fs0 : FS) (name : String)
    (jold : List (Path × Path))
    (hws : ∀ q, startsWithSeg (txWorkspace R txid) q = true → fs0 q = none)
    (hstg : ∀ q, startsWithSeg (stagingRoot R) q = true → fs0 q = none) :
    ∀ (files : List Path) (fs : FS) (jn : List Path),
      Inv2 R txid fs0 fs jold jn →
      Inv2 R txid fs0 (moveStaged (stagingDir R name) R files fs jn).1 jold
        (moveStaged (stagingDir R name) R files fs jn).2.1 := by
  intro files
  induction files with
  | nil => intro fs jn h; exact h
  | cons f rest ih =>
    intro fs jn h
    rw [moveStaged]
    by_cases hsome : (fs (R ++ f)).isSome = true
    · rw [if_pos hsome]
      exact h
    · rw [if_neg hsome]
      apply ih
      have hnone : fs (R ++ f) = none := by
        cases hv : fs (R ++ f) with
        | none => rfl
        | some c => rw [hv] at hsome; simp at hsome
      have hsrcstg : startsWithSeg (stagingRoot R) (stagingDir R name ++ f) = true :=
        stg_under_stgRoot R name f
      have hbne : ∀ ob ∈ jold, ob.2 ≠ R ++ f := by
        intro ob hob heq
        have := h.jback ob hob
        rw [heq, hnone] at this
        exact h.jsome ob hob this.symm
      have hbne2 : ∀ ob ∈ jold, ob.2 ≠ stagingDir R name ++ f := by
        intro ob hob heq
        obtain ⟨g, hg1, hg2⟩ := h.jshape ob hob
        have htx : startsWithSeg (txWorkspace R txid) ob.2 = true := by
          rw [hg2]; exact bkp_under_tx R txid g
        rw [heq] at htx
        exact tx_stg_disjoint R txid _ htx hsrcstg
      refine ⟨h.jshape, ?_, h.jsome, h.jotx, h.jnodup, ?_, ?_, ?_⟩
      · intro ob hob
        show moveFile (stagingDir R name ++ f) (R ++ f) fs ob.2 = fs0 ob.1
        rw [moveFile, if_neg (hbne ob hob), if_neg (hbne2 ob hob)]
        exact h.jback ob hob
      · intro p hp
        rcases List.mem_append.mp hp with hp | hp
        · exact h.bnew p hp
        · rw [List.mem_singleton.mp hp]
          by_cases horig : ∃ b, (R ++ f, b) ∈ jold
          · exact Or.inr horig
          · left
            by_cases hjn : R ++ f ∈ jn
            · rcases h.bnew _ hjn with hb | hb
              · exact hb
              · exact absurd hb horig
            · by_cases htx : startsWithSeg (txWorkspace R txid) (R ++ f) = true
              · exact hws _ htx
              · by_cases hst : startsWithSeg (stagingRoot R) (R ++ f) = true
                · exact hstg _ hst
                · rw [← h.dcur (R ++ f) (by simpa using htx) (by simpa using hst)
                    (fun b hb => horig ⟨b, hb⟩) hjn]
                  exact hnone
      · intro p hp ob hob
        rcases List.mem_append.mp hp with hp | hp
        · exact h.cnew p hp ob hob
        · rw [List.mem_singleton.mp hp]
          exact (hbne ob hob).symm
      · intro q htx hst horig hjn
        have hq1 : q ≠ R ++ f := by
          intro heq
          exact hjn (by rw [heq]; exact List.mem_append_right _ (List.mem_cons_self _ _))
        have hq2 : q ≠ stagingDir R name ++ f := by
          intro heq
          rw [heq, hsrcstg] at hst
          cases hst
        show moveFile (stagingDir R name ++ f) (R ++ f) fs q = fs0 q
        rw [moveFile, if_neg hq1, if_neg hq2]
        exact h.dcur q htx hst horig
          (fun hm => hjn (List.mem_append_left _ hm))

theorem installOne_inv (R : Path) (txid : String) (fs0 : FS)
    (jold : List (Path × Path)) (env : ExecEnv) (item : PackageInstallation)
    (hws : ∀ q, startsWithSeg (txWorkspace R txid) q = true → fs0 q = none)
    (hstg : ∀ q, startsWithSeg (stagingRoot R) q = true → fs0 q = none)
    (fs : FS) (jn : List Path) (h : Inv2 R txid fs0 fs jold jn) :
    Inv2 R txid fs0 (installOne R env item fs jn).1 jold
      (installOne R env item fs jn).2.1 := by
  have h1 : Inv2 R txid fs0 (removeTree (stagingDir R item.metadata.name) fs) jold jn :=
    inv2_congr_outside_stg R txid fs0 fs _ jold jn
      (fun q hq => removeTree_outside R item.metadata.name fs q hq) h
  rw [installOne]
  cases ha : env.archives item.downloaded_archive_path with
  | none =>
    dsimp only
    exact h1
  | some entries =>
    dsimp only
    have h2 : Inv2 R txid fs0
        (writeEntries (stagingDir R item.metadata.name) entries
          (removeTree (stagingDir R item.metadata.name) fs)) jold jn :=
      inv2_congr_outside_stg R txid fs0 _ _ jold jn
        (fun q hq => writeEntries_outside R item.metadata.name entries _ q hq) h1
    by_cases hscr : (item.metadata.pre_install_script ≠ [] &&
        !(env.scriptOk (stagingDir R item.metadata.name ++
          item.metadata.pre_install_script))) = true
    · rw [if_pos hscr]
      exact h2
    · rw [if_neg hscr]
      have h3 := moveStaged_inv R txid fs0 item.metadata.name jold hws hstg
        (entries.map (fun e => e.1)) _ jn h2
      rcases hmv : moveStaged (stagingDir R item.metadata.name) R
          (entries.map (fun e => e.1))
          (writeEntries (stagingDir R item.metadata.name) entries
            (removeTree (stagingDir R item.metadata.name) fs)) jn with ⟨fs3, jn3, err⟩
      rw [hmv] at h3
      rw [hmv]
      cases err with
      | some e => exact h3
      | none =>
        dsimp only
        exact inv2_congr_outside_stg R txid fs0 fs3 _ jold jn3
          (fun q hq => removeTree_outside R item.metadata.name fs3 q hq) h3

theorem phase2_inv (R : Path) (txid : String) (fs0 : FS)
    (jold : List (Path × Path)) (env : ExecEnv)
    (hws : ∀ q, startsWithSeg (txWorkspace R txid) q = true → fs0 q = none)
    (hstg : ∀ q, startsWithSeg (stagingRoot R) q = true → fs0 q = none) :
    ∀ (items : List PackageInstallation) (fs : FS) (jn : List Path),
      Inv2 R txid fs0 fs jold jn →
      Inv2 R txid fs0 (phase2 R env items fs jn).1 jold
        (phase2 R env items fs jn).2.1 := by
  intro items
  induction items with
  | nil => intro fs jn h; exact h
  | cons item rest ih =>
    intro fs jn h
    rw [phase2]
    have h1 := installOne_inv R txid fs0 jold env item hws hstg fs jn h
    rcases hio : installOne R env item fs jn with ⟨fs1, jn1, done, err⟩
    rw [hio] at h1
    cases err with
    | some e => exact h1
    | none =>
      dsimp only
      have h2 := ih fs1 jn1 h1
      rcases hp2 : phase2 R env rest fs1 jn1 with ⟨fs2, jn2, done2, r⟩
      rw [hp2] at h2
      exact h2

theorem deleteFiles_eval : ∀ (l : List Path) (fs : FS) (q : Path),
    deleteFiles l fs q = if q ∈ l then none else fs q := by
  intro l
  induction l with
  | nil => intro fs q; simp [deleteFiles]
  | cons p rest ih =>
    intro fs q
    rw [deleteFiles, ih]
    by_cases h1 : q ∈ rest
    · simp [h1, List.mem_cons]
    · by_cases h2 : q = p
      · simp [h1, h2, removeFile, List.mem_cons]
      · simp [h1, h2, removeFile, List.mem_cons]

theorem nodupMapOfNodupMap {α β γ : Type} (g : α → β) (f : α → γ) :
    ∀ (l : List α), (∀ x ∈ l, ∀ y ∈ l, f x = f y → g x = g y) →
      (l.map g).Nodup → (l.map f).Nodup := by
  intro l
  induction l with
  | nil => intro _ _; simp
  | cons a as ih =>
    intro hinj hg
    rw [List.map_cons, List.nodup_cons] at hg ⊢
    constructor
    · intro hmem
      obtain ⟨y, hy, hfy⟩ := List.mem_map.mp hmem
      apply hg.1
      rw [← hinj y (List.mem_cons_of_mem a hy) a (List.mem_cons_self a as) hfy]
      exact List.mem_map_of_mem g hy
    · exact ih (fun x hx y hy => hinj x (List.mem_cons_of_mem a hx)
        y (List.mem_cons_of_mem a hy)) hg.2

/-- Preconditions for the restore pass: every backup present, all backup
paths distinct, all originals distinct, and no backup path is an
original. -/
def RestorePre (fs : FS) (l : List (Path × Path)) : Prop :=
  (∀ ob ∈ l, fs ob.2 ≠ none) ∧
  (l.map Prod.snd).Nodup ∧
  (l.map Prod.fst).Nodup ∧
  (∀ ob ∈ l, ∀ ob2 ∈ l, ob.2 ≠ ob2.1)

theorem restoreAll_spec : ∀ (l : List (Path × Path)) (fs : FS), RestorePre fs l →
    (∀ ob ∈ l, restoreAll l fs ob.1 = fs ob.2) ∧
    (∀ q, (∀ ob ∈ l, q ≠ ob.1 ∧ q ≠ ob.2) → restoreAll l fs q = fs q) := by
  intro l
  induction l with
  | nil =>
    intro fs _
    refine ⟨?_, fun q _ => rfl⟩
    intro ob hob
    cases hob
  | cons hd tl ih =>
    obtain ⟨o, b⟩ := hd
    intro fs hpre
    obtain ⟨hne, hsnd, hfst, hdisj⟩ := hpre
    have hob : fs b ≠ none := hne (o, b) (List.mem_cons_self _ _)
    have hbo : b ≠ o :=
      hdisj (o, b) (List.mem_cons_self _ _) (o, b) (List.mem_cons_self _ _)
    rw [restoreAll]
    rw [if_pos (Option.isSome_iff_ne_none.mpr hob)]
    rw [List.map_cons, List.nodup_cons] at hsnd hfst
    have hfs1 : ∀ p, moveFile b o fs p = if p = o then fs b else if p = b then none else fs p :=
      fun p => rfl
    have pre2 : RestorePre (moveFile b o fs) tl := by
      refine ⟨?_, hsnd.2, hfst.2, fun ob hob2 ob2 hob22 =>
        hdisj ob (List.mem_cons_of_mem _ hob2) ob2 (List.mem_cons_of_mem _ hob22)⟩
      intro ob hob2
      have hno : ob.2 ≠ o :=
        hdisj ob (List.mem_cons_of_mem _ hob2) (o, b) (List.mem_cons_self _ _)
      have hnb : ob.2 ≠ b := by
        intro heq
        apply hsnd.1
        rw [← heq]
        exact List.mem_map.mpr ⟨ob, hob2, rfl⟩
      rw [hfs1, if_neg hno, if_neg hnb]
      exact hne ob (List.mem_cons_of_mem _ hob2)
    obtain ⟨ih1, ih2⟩ := ih (moveFile b o fs) pre2
    constructor
    · intro ob hob2
      rcases List.mem_cons.mp hob2 with heq | hmem
      · rw [heq]
        show restoreAll tl (moveFile b o fs) o = fs b
        have hout : ∀ ob2 ∈ tl, o ≠ ob2.1 ∧ o ≠ ob2.2 := by
          intro ob2 hob22
          constructor
          · intro heq2
            apply hfst.1
            rw [heq2]
            exact List.mem_map.mpr ⟨ob2, hob22, rfl⟩
          · intro heq2
            exact hdisj ob2 (List.mem_cons_of_mem _ hob22) (o, b)
              (List.mem_cons_self _ _) heq2.symm
        rw [ih2 o hout, hfs1, if_pos rfl]
      · rw [ih1 ob hmem, hfs1]
        have hno : ob.2 ≠ o :=
          hdisj ob (List.mem_cons_of_mem _ hmem) (o, b) (List.mem_cons_self _ _)
        have hnb : ob.2 ≠ b := by
          intro heq
          apply hsnd.1
          rw [← heq]
          exact List.mem_map.mpr ⟨ob, hmem, rfl⟩
        rw [if_neg hno, if_neg hnb]
    · intro q hq
      have hqtl : ∀ ob ∈ tl, q ≠ ob.1 ∧ q ≠ ob.2 :=
        fun ob hob2 => hq ob (List.mem_cons_of_mem _ hob2)
      obtain ⟨hqo, hqb⟩ := hq (o, b) (List.mem_cons_self _ _)
      rw [ih2 q hqtl, hfs1, if_neg hqo, if_neg hqb]

/-- Rollback correctness: from any failure state satisfying the Phase-2
invariant, deleting the journaled new files, restoring the backups, and
removing the workspace restores every touched path to its pre-transaction
contents. -/
theorem rollback_restores (R : Path) (txid : String) (fs0 fsE : FS)
    (jold : List (Path × Path)) (jn : List Path)
    (h : Inv2 R txid fs0 fsE jold jn) :
    ∀ q, (q ∈ jn ∨ ∃ b, (q, b) ∈ jold) →
      removeTree (txWorkspace R txid)
        (rollback_transaction ⟨jn, jold⟩ fsE) q = fs0 q := by
  have hdel : ∀ q, deleteFiles jn.reverse fsE q = if q ∈ jn then none else fsE q := by
    intro q
    rw [deleteFiles_eval]
    simp [List.mem_reverse]
  have pre : RestorePre (deleteFiles jn.reverse fsE) jold := by
    refine ⟨?_, ?_, h.jnodup, ?_⟩
    · intro ob hob
      have hnjn : ob.2 ∉ jn := by
        intro hm
        exact h.cnew ob.2 hm ob hob rfl
      rw [hdel, if_neg hnjn, h.jback ob hob]
      exact h.jsome ob hob
    · apply nodupMapOfNodupMap Prod.fst Prod.snd jold ?_ h.jnodup
      intro x hx y hy hxy
      obtain ⟨fx, hfx1, hfx2⟩ := h.jshape x hx
      obtain ⟨fy, hfy1, hfy2⟩ := h.jshape y hy
      rw [hfx2, hfy2] at hxy
      have : fx = fy := List.append_cancel_left hxy
      rw [hfx1, hfy1, this]
    · intro ob hob ob2 hob2
      obtain ⟨f, _, hf2⟩ := h.jshape ob hob
      refine ne_of_startsWithSeg (txWorkspace R txid) ob.2 ob2.1 ?_ (h.jotx ob2 hob2)
      rw [hf2]
      exact bkp_under_tx R txid f
  obtain ⟨hres1, hres2⟩ := restoreAll_spec jold (deleteFiles jn.reverse fsE) pre
  intro q hq
  show removeTree (txWorkspace R txid)
    (restoreAll jold (deleteFiles jn.reverse fsE)) q = fs0 q
  by_cases horg : ∃ b, (q, b) ∈ jold
  · obtain ⟨b, hb⟩ := horg
    have hnb : b ∉ jn := fun hm => h.cnew b hm (q, b) hb rfl
    have hfin : restoreAll jold (deleteFiles jn.reverse fsE) q = fs0 q := by
      rw [hres1 (q, b) hb, hdel, if_neg hnb]
      exact h.jback (q, b) hb
    rw [removeTree, if_neg ?_, hfin]
    rw [h.jotx (q, b) hb]
    intro hc
    cases hc
  · have hqjn : q ∈ jn := by
      rcases hq with hq | hq
      · exact hq
      · exact absurd hq horg
    have hfs0 : fs0 q = none := by
      rcases h.bnew q hqjn with hb | hb
      · exact hb
      · exact absurd hb horg
    have hout : ∀ ob ∈ jold, q ≠ ob.1 ∧ q ≠ ob.2 := by
      intro ob hob
      constructor
      · intro heq
        apply horg
        refine ⟨ob.2, ?_⟩
        rw [heq]
        simpa using hob
      · exact h.cnew q hqjn ob hob
    have hfin : restoreAll jold (deleteFiles jn.reverse fsE) q = none := by
      rw [hres2 q hout, hdel, if_pos hqjn]
    rw [removeTree, hfs0]
    by_cases htx : startsWithSeg (txWorkspace R txid) q = true
    · rw [if_pos htx]
    · rw [if_neg htx, hfin]

/-- C1 (Executor atomicity, spec 4.10 / package_manager.cpp:404-587,
875-893): for every transaction plan, if `execute_transaction` returns an
error — i.e. it failed at any point before the Phase-3 database commit
completed — then the installed database it returns is unchanged, and every
path touched by the transaction (each journaled newly moved-in file and
each backed-up original) holds exactly its pre-transaction contents in the
returned filesystem. The hypotheses state the executor's operating
conditions: the fresh transaction workspace and the staging root are empty
before the run, and no removed package owns a file inside the transaction
workspace. -/
theorem claim_C1 (R : Path) (txid : String) (env : ExecEnv) (plan : Transaction)
    (fs0 : FS) (db0 : List InstalledPackage)
    (hws : ∀ q, startsWithSeg (txWorkspace R txid) q = true → fs0 q = none)
    (hstg : ∀ q, startsWithSeg (stagingRoot R) q = true → fs0 q = none)
    (hown : ∀ pkg ∈ plan.to_remove, ∀ f ∈ pkg.owned_files,
      startsWithSeg (txWorkspace R txid) (R ++ f) = false)
    (e : TransactionError)
    (hres : (execute_transaction R txid env plan fs0 db0).res = some e) :
    (execute_transaction R txid env plan fs0 db0).db = db0 ∧
    ∀ q, (q ∈ (execute_transaction R txid env plan fs0 db0).journal.new_files_committed ∨
        ∃ b, (q, b) ∈
          (execute_transaction R txid env plan fs0 db0).journal.old_files_backed_up) →
      (execute_transaction R txid env plan fs0 db0).fs q = fs0 q := by
  have hout : ∃ jn jold fsE,
      execute_transaction R txid env plan fs0 db0 =
        mkFail (txWorkspace R txid) e ⟨jn, jold⟩ fsE db0 ∧
      Inv2 R txid fs0 fsE jold jn := by
    rw [execute_transaction] at hres ⊢
    by_cases hemp : plan.is_empty = true
    · rw [if_pos hemp] at hres
      dsimp only at hres
      exact Option.noConfusion hres
    · rw [if_neg hemp] at hres ⊢
      dsimp only at hres ⊢
      have hInv1 := phase1_inv R txid fs0 plan.to_remove hown fs0 []
        (inv1_init R txid fs0)
      rcases hp1 : phase1 R (txBackupDir R txid) plan.to_remove (fs0, [])
        with ⟨fs1, jold⟩
      rw [hp1] at hres hInv1
      dsimp only at hres hInv1 ⊢
      cases hpr : runPreRemove R env plan.to_remove fs1 with
      | some e2 =>
        rw [hpr] at hres
        dsimp only at hres ⊢
        dsimp only [mkFail] at hres
        have he : e2 = e := Option.some.inj hres
        subst he
        exact ⟨[], jold, fs1, rfl, inv2_of_inv1 R txid fs0 fs1 jold hInv1⟩
      | none =>
        rw [hpr] at hres
        dsimp only at hres ⊢
        have hInvP2 := phase2_inv R txid fs0 jold env hws hstg plan.to_install fs1 []
          (inv2_of_inv1 R txid fs0 fs1 jold hInv1)
        rcases hp2 : phase2 R env plan.to_install fs1 [] with ⟨fs2, jn, completed, r⟩
        rw [hp2] at hres hInvP2
        dsimp only at hres hInvP2 ⊢
        cases r with
        | some e2 =>
          dsimp only at hres ⊢
          dsimp only [mkFail] at hres
          have he : e2 = e := Option.some.inj hres
          subst he
          exact ⟨jn, jold, fs2, rfl, hInvP2⟩
        | none =>
          dsimp only at hres ⊢
          cases hdb : perform_transactional_update env.dbCommitOk completed
              (plan.to_remove.map (fun p => p.name)) db0 with
          | none =>
            rw [hdb] at hres
            dsimp only at hres ⊢
            dsimp only [mkFail] at hres
            have he : TransactionError.FileSystemError = e := Option.some.inj hres
            subst he
            exact ⟨jn, jold, fs2, rfl, hInvP2⟩
          | some db1 =>
            rw [hdb] at hres
            dsimp only at hres
            exact Option.noConfusion hres
  obtain ⟨jn, jold, fsE, hEq, hInv⟩ := hout
  rw [hEq]
  refine ⟨rfl, ?_⟩
  intro q hq
  exact rollback_restores R txid fs0 fsE jold jn hInv q hq

/-- The empty pre-transaction filesystem used in the C1 witness run. -/
def c1fs : FS := fun _ => none

/-- Executor environment for the C1 witness: scripts succeed, every
archive is unreadable, the database commit would succeed. -/
def c1env : ExecEnv := ⟨fun _ => true, fun _ => none, true⟩

/-- C1 witness plan: install one package whose archive cannot be read, so
Phase 2 fails with `ExtractionFailed`. -/
def c1plan : Transaction :=
  { to_install := [⟨{ name := "w" }, ["arc"]⟩], to_remove := [] }

theorem claim_C1_witness :
    (execute_transaction ["r"] "t" c1env c1plan c1fs []).res =
      some .ExtractionFailed ∧
    ((execute_transaction ["r"] "t" c1env c1plan c1fs []).db = [] ∧
      ∀ q, (q ∈ (execute_transaction ["r"] "t" c1env c1plan
            c1fs []).journal.new_files_committed ∨
          ∃ b, (q, b) ∈ (execute_transaction ["r"] "t" c1env c1plan
            c1fs []).journal.old_files_backed_up) →
        (execute_transaction ["r"] "t" c1env c1plan c1fs []).fs q = c1fs q) :=
  ⟨by decide, claim_C1 ["r"] "t" c1env c1plan c1fs []
    (fun _ _ => rfl) (fun _ _ => rfl)
    (by intro pkg hp; cases hp) .ExtractionFailed (by decide)⟩

/-- Removed package for the C6 run: it owns two files, one of which is its
own `pre_remove` script. -/
def c6pkg : InstalledPackage :=
  { name := "app", pre_remove_script := ["scripts", "pre"],
    owned_files := [["bin", "app"], ["scripts", "pre"]] }

/-- Pre-transaction filesystem for the C6 run: the removed package's two
owned files exist under the root `["r"]`. -/
def c6fs : FS := fun p =>
  if p = ["r", "bin", "app"] then some "bin"
  else if p = ["r", "scripts", "pre"] then some "script" else none

/-- Executor environment for the C6 run: EVERY script run fails, archives
are irrelevant (pure removal), the database commit succeeds. -/
def c6env : ExecEnv := ⟨fun _ => false, fun _ => none, true⟩

/-- C6 plan: remove `c6pkg`, install nothing. -/
def c6plan : Transaction := { to_install := [], to_remove := [c6pkg] }

/-- C6 (Pre-remove hook contract, spec 4.10 / package_manager.cpp:444-457):
REFUTED — the code resolves the pre-remove script at the LIVE root, not in
the transaction backup directory. Concrete run: `c6pkg`'s `pre_remove`
script exists pre-transaction at root-relative `scripts/pre` (conjunct 2)
and is among the package's owned files, so Phase 1 moves it into the
backup directory (conjunct 3, the journal records the move). The
environment makes every script run fail (conjunct 1), so per the claim the
transaction MUST abort with `ScriptletFailed`; instead the executor's
existence probe at the live root finds the file already moved away,
silently skips the hook, and the transaction SUCCEEDS (conjunct 4,
`res = none`). -/
theorem claim_C6_eval :
    c6env.scriptOk (txBackupDir ["r"] "t" ++ ["scripts", "pre"]) = false ∧
    c6fs (["r"] ++ ["scripts", "pre"]) = some "script" ∧
    (["r", "scripts", "pre"], txBackupDir ["r"] "t" ++ ["scripts", "pre"]) ∈
      (execute_transaction ["r"] "t" c6env c6plan c6fs
        []).journal.old_files_backed_up ∧
    (execute_transaction ["r"] "t" c6env c6plan c6fs []).res = none := by
  decide

end Aurora
